import Mathlib

/-!
Verification of the kvs repository: a Bitcask-style persistent key-value
store (src/store.rs, src/file.rs), its network server dispatch
(src/network/server.rs) and its shared-queue worker pool
(src/thread_pool/shared_queue.rs).

The Rust code is shallowly embedded:
  - byte strings are lists of characters;
  - the serde_json record codec is modelled by an executable JSON-style
    encoder/decoder for the Command struct with its short field names
    (a record is rendered as an object with fields k and v, v being null
    for a tombstone), including string escaping of quote and backslash;
  - HashMap values (index, readers) and the directory of segment files
    become association lists; BufReader values are reduced to their seek
    position, BufWriter values to the id/offset bookkeeping of KvsWriter
    plus the on-disk file contents;
  - fallible methods return an Except value paired with the
    post-operation store state (the Rust methods mutate self in place and
    may return early with an error); a panic of an .expect call is
    modelled as a distinguished error outcome;
  - the streaming replay loop of load_file_into_index is written with an
    explicit fuel argument (one unit per decoded record) to make the
    recursion structural; callers pass enough fuel for the fuel never to
    run out.
-/

namespace Kvs

/-! ## Command records (src/store.rs, struct Command) -/

/-- Operations which can be performed on the database; a remove command
has value equal to none (a tombstone). Mirrors struct Command with its
serde renames k and v. -/
structure Command where
  key : List Char
  value : Option (List Char)
deriving DecidableEq, Repr

/-! ## Codec: model of serde_json for Command records -/

/-- Escape a single character for a JSON string body. -/
def escapeChar (c : Char) : List Char :=
  if c = '"' ∨ c = '\\' then ['\\', c] else [c]

/-- Escape a whole string body. -/
def escapeStr : List Char → List Char
  | [] => []
  | c :: cs => escapeChar c ++ escapeStr cs

/-- Encode a JSON string literal (quote, escaped body, quote). -/
def encodeStr (s : List Char) : List Char :=
  '"' :: (escapeStr s ++ ['"'])

/-- Encode the value field: null for a tombstone, else a string literal. -/
def encodeVal : Option (List Char) → List Char
  | none => ['n', 'u', 'l', 'l']
  | some v => encodeStr v

/-- The literal opening a record up to the key string. -/
def keyLit : List Char := ['{', '"', 'k', '"', ':']

/-- The literal between the key string and the value. -/
def sepLit : List Char := [',', '"', 'v', '"', ':']

/-- Encode one Command record. -/
def encodeCmd (c : Command) : List Char :=
  keyLit ++ encodeStr c.key ++ sepLit ++ encodeVal c.value ++ ['}']

/-- Encode a sequence of records back to back (the segment file format). -/
def encodeList (cs : List Command) : List Char :=
  (cs.map encodeCmd).flatten

/-- Consume an exact literal from the front of the input. -/
def dropLit : List Char → List Char → Option (List Char)
  | [], l => some l
  | _ :: _, [] => none
  | c :: p, d :: l => if c = d then dropLit p l else none

/-- Parse a JSON string body after the opening quote, undoing escapes,
up to and including the closing quote. -/
def parseStrAux : List Char → Option (List Char × List Char)
  | [] => none
  | '"' :: rest => some ([], rest)
  | '\\' :: c :: rest => (parseStrAux rest).map (fun p => (c :: p.1, p.2))
  | c :: rest => (parseStrAux rest).map (fun p => (c :: p.1, p.2))

/-- Parse a JSON string literal including its opening quote. -/
def parseJStr : List Char → Option (List Char × List Char)
  | '"' :: rest => parseStrAux rest
  | _ => none

/-- Parse the value field: null or a string literal. -/
def parseVal (l : List Char) : Option (Option (List Char) × List Char) :=
  match l with
  | 'n' :: 'u' :: 'l' :: 'l' :: rest => some (none, rest)
  | _ => (parseJStr l).map (fun p => (some p.1, p.2))

/-- Parse exactly one Command record from the front of the input,
returning it together with the unconsumed suffix. -/
def parseCmd (l : List Char) : Option (Command × List Char) :=
  (dropLit keyLit l).bind fun l1 =>
  (parseJStr l1).bind fun p =>
  (dropLit sepLit p.2).bind fun l3 =>
  (parseVal l3).bind fun q =>
  (dropLit ['}'] q.2).map fun l5 => (⟨p.1, q.1⟩, l5)

/-- Whitespace as tolerated by serde_json after a value. -/
def isWsChar (c : Char) : Bool :=
  c = ' ' || c = '\n' || c = '\t' || c = '\r'

/-! ## Error taxonomy (src/errors.rs and library error wrappers)

The first five constructors mirror the KvsError enum; serde and ioErr
stand for serde_json and std::io errors wrapped in failure::Error;
panicked models the outcome of a failed .expect call (the Rust code
would unwind, which no caller of these methods catches). -/

inductive Err where
  | notADirectory
  | keyNotFound
  | unexpectedCommand
  | unexpectedKey
  | unexpectedFileName
  | serde
  | ioErr
  | panicked
deriving DecidableEq, Repr

/-! ## Association-list maps (model of std HashMap and of the directory) -/

/-- Lookup of the first binding of a key. -/
def aGet {ν : Type} : List (Nat × ν) → Nat → Option ν
  | [], _ => none
  | (i, x) :: m, id => if i = id then some x else aGet m id

/-- Lookup in a map with list keys (the index). -/
def kGet {ν : Type} : List (List Char × ν) → List Char → Option ν
  | [], _ => none
  | (i, x) :: m, k => if i = k then some x else kGet m k

/-- HashMap::insert: replace the existing binding in place, else append. -/
def kPut {ν : Type} : List (List Char × ν) → List Char → ν → List (List Char × ν)
  | [], k, v => [(k, v)]
  | (i, x) :: m, k, v => if i = k then (k, v) :: m else (i, x) :: kPut m k v

/-- HashMap::remove for list keys. -/
def kDel {ν : Type} : List (List Char × ν) → List Char → List (List Char × ν)
  | [], _ => []
  | (i, x) :: m, k => if i = k then kDel m k else (i, x) :: kDel m k

/-- HashMap::insert for Nat keys. -/
def aPut {ν : Type} : List (Nat × ν) → Nat → ν → List (Nat × ν)
  | [], id, v => [(id, v)]
  | (i, x) :: m, id, v => if i = id then (id, v) :: m else (i, x) :: aPut m id v

/-- HashMap::remove for Nat keys. -/
def aDel {ν : Type} : List (Nat × ν) → Nat → List (Nat × ν)
  | [], _ => []
  | (i, x) :: m, id => if i = id then aDel m id else (i, x) :: aDel m id

/-- Update the value bound to a key in place. -/
def aMod {ν : Type} (m : List (Nat × ν)) (id : Nat) (f : ν → ν) : List (Nat × ν) :=
  m.map (fun p => if p.1 = id then (p.1, f p.2) else p)

/-! ## Data model of the engine (src/store.rs, src/file.rs) -/

/-- The directory of segment files: id to byte contents. -/
abbrev Files := List (Nat × List Char)

/-- The readers map: id to current seek position of the BufReader. -/
abbrev Readers := List (Nat × Nat)

/-- struct ValueInfo: location of the current value record of a key. -/
structure ValueInfo where
  file_id : Nat
  file_offset : Nat
  size : Nat
deriving DecidableEq, Repr

/-- The in-memory index. -/
abbrev Index := List (List Char × ValueInfo)

/-- The id/offset bookkeeping of struct KvsWriter; the buffered file
handle itself is represented by the Files entry of the same id. -/
structure KvsWriter where
  id : Nat
  offset : Nat
deriving DecidableEq, Repr

/-- struct InternalKvStore (the path field is dropped: the model works
directly on the contents of the .kvs directory). -/
structure Store where
  writer : KvsWriter
  readers : Readers
  files : Files
  index : Index
  uncompacted : Nat
deriving DecidableEq, Repr

/-- const MAX_UNCOMPACTED: Bytes = Bytes(1024 * 1024). -/
def MAX_UNCOMPACTED : Nat := 1024 * 1024

/-- KvsWriter::new opens the file in append+create mode: the file is
created empty when missing and kept intact when present. -/
def wCreate (fs : Files) (id : Nat) : Files :=
  if (aGet fs id).isSome then fs else fs ++ [(id, [])]

/-- Append bytes to the file a KvsWriter with this id writes to. -/
def fAppend (fs : Files) (id : Nat) (d : List Char) : Files :=
  if (aGet fs id).isSome then aMod fs id (fun c => c ++ d) else fs ++ [(id, d)]

/-- fs::remove_file by id (the caller checks existence separately). -/
def fRemove : Files → Nat → Files
  | [], _ => []
  | (i, c) :: fs, id => if i = id then fRemove fs id else (i, c) :: fRemove fs id

/-- Reposition a reader (BufReader::seek and subsequent reads). -/
def rSeek (rs : Readers) (id pos : Nat) : Readers :=
  aMod rs id (fun _ => pos)

/-- serde_json::from_reader on a bounded reader of the given bytes:
exactly one record must parse and only whitespace may follow. -/
def fromReaderOne (bytes : List Char) : Except Err Command :=
  match parseCmd bytes with
  | none => .error .serde
  | some (c, rest) => if rest.all isWsChar then .ok c else .error .serde

/-! ## Engine operations -/

/-- KvsEngine::get for KvStore (src/store.rs lines 197-220).
The returned store differs from the input store only in the seek
position of the reader that was used. -/
def get (s : Store) (key : List Char) : Except Err (Option (List Char)) × Store :=
  match kGet s.index key with
  | none => (.ok none, s)
  | some vi =>
    match aGet s.readers vi.file_id with
    | none => (.error .panicked, s)
    | some _ =>
      match aGet s.files vi.file_id with
      | none => (.error .ioErr, s)
      | some content =>
        let bytes := (content.drop vi.file_offset).take vi.size
        let s1 := { s with readers := rSeek s.readers vi.file_id (vi.file_offset + bytes.length) }
        match fromReaderOne bytes with
        | .error e => (.error e, s1)
        | .ok cmd =>
          match cmd.value with
          | none => (.error .unexpectedCommand, s1)
          | some v => (.ok (some v), s1)

/-- The copying loop of InternalKvStore::compact (src/store.rs lines
153-177): walk the index entries; entries already in the new active
segment are skipped; every other entry has size bytes copied from its
recorded position into the compaction file and is rewritten to point
there. cid is the compaction file id, nid the new active id. -/
def compactLoop (cid nid : Nat) :
    Index → Files → Readers → Nat → Except Err Unit × (Index × Files × Readers × Nat)
  | [], fls, rds, coff => (.ok (), ([], fls, rds, coff))
  | (k, vi) :: rest, fls, rds, coff =>
    if vi.file_id = nid then
      match compactLoop cid nid rest fls rds coff with
      | (e, (idx2, f2, r2, c2)) => (e, ((k, vi) :: idx2, f2, r2, c2))
    else
      match aGet rds vi.file_id with
      | none => (.error .panicked, ((k, vi) :: rest, fls, rds, coff))
      | some _ =>
        let content := (aGet fls vi.file_id).getD []
        let bytes := (content.drop vi.file_offset).take vi.size
        let fls1 := fAppend fls cid bytes
        let rds1 := rSeek rds vi.file_id (vi.file_offset + bytes.length)
        match compactLoop cid nid rest fls1 rds1 (coff + bytes.length) with
        | (e, (idx2, f2, r2, c2)) => (e, ((k, ⟨cid, coff, bytes.length⟩) :: idx2, f2, r2, c2))

/-- The deletion loop of compact (src/store.rs lines 187-190): for each
id, drop the reader, then fs-remove the file (an error if missing). -/
def rmLoop : List Nat → Readers → Files → Except Err Unit × Readers × Files
  | [], rds, fls => (.ok (), rds, fls)
  | id :: ids, rds, fls =>
    let rds1 := aDel rds id
    match aGet fls id with
    | none => (.error .ioErr, rds1, fls)
    | some _ => rmLoop ids rds1 (fRemove fls id)

/-- InternalKvStore::compact (src/store.rs lines 128-193). -/
def compact (s : Store) : Except Err Unit × Store :=
  let cid := s.writer.id + 1
  let files1 := wCreate s.files cid
  let readers1 := aPut s.readers cid 0
  let nid := s.writer.id + 2
  let files2 := wCreate files1 nid
  let readers2 := aPut readers1 nid 0
  let s1 : Store :=
    { s with files := files2, readers := readers2, uncompacted := 0, writer := ⟨nid, 0⟩ }
  match compactLoop cid nid s1.index s1.files s1.readers 0 with
  | (.error e, (idx, fls, rds, _)) =>
    (.error e, { s1 with index := idx, files := fls, readers := rds })
  | (.ok (), (idx, fls, rds, _)) =>
    let rmIds := (rds.map (fun p => p.1)).filter (fun i => decide (i < cid))
    match rmLoop rmIds rds fls with
    | (e, rds2, fls2) => (e, { s1 with index := idx, files := fls2, readers := rds2 })

/-- The state of KvStore::set just before the compaction check: record
the writer offset, append the serialized Set record, flush, account the
overwritten entry in the uncompacted counter, install the new index
entry (src/store.rs lines 225-250). -/
def setPre (s : Store) (key value : List Char) : Store :=
  let writePos := s.writer.offset
  let enc := encodeCmd ⟨key, some value⟩
  { s with
    files := fAppend s.files s.writer.id enc
    writer := ⟨s.writer.id, s.writer.offset + enc.length⟩
    uncompacted :=
      match kGet s.index key with
      | some vi => s.uncompacted + vi.size
      | none => s.uncompacted
    index := kPut s.index key ⟨s.writer.id, writePos, enc.length⟩ }

/-- KvsEngine::set for KvStore (src/store.rs lines 222-257). -/
def set (s : Store) (key value : List Char) : Except Err Unit × Store :=
  let s1 := setPre s key value
  if s1.uncompacted > MAX_UNCOMPACTED then compact s1 else (.ok (), s1)

/-- The state of KvStore::remove on the found path just before the
compaction check: append the serialized tombstone, flush, account both
the previous entry and the tombstone, delete the key
(src/store.rs lines 269-283). -/
def removePre (s : Store) (key : List Char) (prevSize : Nat) : Store :=
  let enc := encodeCmd ⟨key, none⟩
  { s with
    files := fAppend s.files s.writer.id enc
    writer := ⟨s.writer.id, s.writer.offset + enc.length⟩
    uncompacted := s.uncompacted + prevSize + enc.length
    index := kDel s.index key }

/-- KvsEngine::remove for KvStore (src/store.rs lines 259-292). -/
def remove (s : Store) (key : List Char) : Except Err Unit × Store :=
  match kGet s.index key with
  | none => (.error .keyNotFound, s)
  | some vi =>
    let s1 := removePre s key vi.size
    if s1.uncompacted > MAX_UNCOMPACTED then compact s1 else (.ok (), s1)

/-- fn load_file_into_index (src/store.rs lines 306-354): replay one
segment left to right; each record's size is the decoder's byte offset
difference; a Set overwrites the index entry; a Remove deletes it and
counts itself; any overwritten entry is counted. The fuel argument (one
unit per record) only makes the recursion structural; callers supply
content.length + 1 which can never run out since a record is at least
one byte. -/
def loadRecords (fid : Nat) : Nat → List Char → Nat → Index → Nat → Except Err (Nat × Index)
  | 0, _, _, _, _ => .error .serde
  | _ + 1, [], _, idx, unc => .ok (unc, idx)
  | fuel + 1, l@(_ :: _), off, idx, unc =>
    match parseCmd l with
    | none => .error .serde
    | some (cmd, rest) =>
      let cmdSize := l.length - rest.length
      let unc1 :=
        match kGet idx cmd.key with
        | some vi => unc + vi.size
        | none => unc
      match cmd.value with
      | some _ =>
        loadRecords fid fuel rest (off + cmdSize) (kPut idx cmd.key ⟨fid, off, cmdSize⟩) unc1
      | none =>
        loadRecords fid fuel rest (off + cmdSize) (kDel idx cmd.key) (unc1 + cmdSize)

/-- The replay loop of InternalKvStore::open (src/store.rs lines
106-112): for each id in ascending order, open a reader, load the file
into the shared index accumulating the uncompacted counter, and keep
the reader (now positioned at end of file). -/
def openLoop : List Nat → Files → Readers → Index → Nat → Except Err (Readers × Index × Nat)
  | [], _, rds, idx, unc => .ok (rds, idx, unc)
  | id :: ids, disk, rds, idx, unc =>
    match aGet disk id with
    | none => .error .ioErr
    | some content =>
      match loadRecords id (content.length + 1) content 0 idx 0 with
      | .error e => .error e
      | .ok (u, idx2) => openLoop ids disk (aPut rds id content.length) idx2 (unc + u)

/-- InternalKvStore::open (src/store.rs lines 90-126) on the contents
of the .kvs directory: sort the segment ids, replay them in order, then
open the new active segment with id max+1 and a reader for it. -/
def openStore (disk : Files) : Except Err Store :=
  let ids := List.insertionSort (· ≤ ·) (disk.map (fun p => p.1))
  match openLoop ids disk [] [] 0 with
  | .error e => .error e
  | .ok (rds, idx, unc) =>
    let wid := ids.getLast?.getD 0 + 1
    .ok
      { writer := ⟨wid, 0⟩
        readers := aPut rds wid 0
        files := wCreate disk wid
        index := idx
        uncompacted := unc }

/-! ## Operation sequences over one store -/

/-- One client-visible engine call. -/
inductive Op where
  | opSet (k v : List Char)
  | opRm (k : List Char)
  | opGet (k : List Char)
deriving DecidableEq, Repr

/-- Apply one call, keeping the post-call state. -/
def applyOp (s : Store) (o : Op) : Store :=
  match o with
  | .opSet k v => (set s k v).2
  | .opRm k => (remove s k).2
  | .opGet k => (get s k).2

/-- Run a sequence of calls. -/
def runOps (s : Store) (ops : List Op) : Store :=
  ops.foldl applyOp s

/-- Does an operation leave key k alone (no set of k, no remove of k)? -/
def avoids (k : List Char) : Op → Prop
  | .opSet k2 _ => k2 ≠ k
  | .opRm k2 => k2 ≠ k
  | .opGet _ => True

instance (k : List Char) (o : Op) : Decidable (avoids k o) := by
  cases o <;> simp [avoids] <;> infer_instance

/-- The current value of a key after a command history, last writer
wins: a Set makes it that value, a Remove makes it absent. -/
def logGet (cmds : List Command) (k : List Char) : Option (List Char) :=
  cmds.foldl (fun acc c => if c.key = k then c.value else acc) none

/-- The commands an operation sequence asks the engine to log
(get logs nothing; a remove of an absent key logs nothing either, but
including its tombstone changes no logGet result). -/
def cmdsOfOps : List Op → List Command
  | [] => []
  | .opSet k v :: rest => ⟨k, some v⟩ :: cmdsOfOps rest
  | .opRm k :: rest => ⟨k, none⟩ :: cmdsOfOps rest
  | .opGet _ :: rest => cmdsOfOps rest

/-! ## Store invariant -/

/-- The index entry (k, vi) points at a well-formed Set record for key
k with value v stored in segment vi.file_id. -/
def entryPoints (fs : Files) (k : List Char) (vi : ValueInfo) (v : List Char) : Prop :=
  ∃ content, aGet fs vi.file_id = some content ∧
    vi.file_offset + vi.size ≤ content.length ∧
    (content.drop vi.file_offset).take vi.size = encodeCmd ⟨k, some v⟩

/-- The index agrees with a command history: indexed keys point at a
record holding the history's current value, unindexed keys are absent
from the history's current state. -/
def indexMatches (fs : Files) (idx : Index) (hist : List Command) : Prop :=
  ∀ k : List Char,
    (∀ vi, kGet idx k = some vi → ∃ v, entryPoints fs k vi v ∧ logGet hist k = some v) ∧
    (kGet idx k = none → logGet hist k = none)

/-- Every segment file is a back-to-back encoding of a command list. -/
def FilesWf (fs : Files) (css : List (List Command)) : Prop :=
  List.Forall₂ (fun p cs => p.2 = encodeList cs) fs css

/-- The reachable-state invariant of the engine. -/
structure Inv (s : Store) : Prop where
  writerLast : ∃ fs0 c, s.files = fs0 ++ [(s.writer.id, c)] ∧ s.writer.offset = c.length
  ascIds : List.Pairwise (· < ·) (s.files.map (fun p => p.1))
  idsLe : ∀ p ∈ s.files, p.1 ≤ s.writer.id
  sync : ∀ id, (aGet s.readers id).isSome ↔ (aGet s.files id).isSome
  rNodup : (s.readers.map (fun p => p.1)).Nodup
  kNodup : (s.index.map (fun p => p.1)).Nodup
  wf : ∃ css, FilesWf s.files css ∧ indexMatches s.files s.index css.flatten

/-- The store produced by opening an empty directory. -/
def store0 : Store :=
  { writer := ⟨1, 0⟩
    readers := [(1, 0)]
    files := [(1, [])]
    index := []
    uncompacted := 0 }

/-! ## Network server (src/network/server.rs, src/network/data.rs) -/

/-- enum NetworkCommand. -/
inductive NetworkCommand where
  | get (key : List Char)
  | set (key value : List Char)
  | rm (key : List Char)
deriving DecidableEq, Repr

/-- enum ErrorType. -/
inductive ErrorType where
  | commandDeserialisation
  | keyNotFound
  | unknown
deriving DecidableEq, Repr

/-- enum NetworkResponse. -/
inductive NetworkResponse where
  | error (code : ErrorType)
  | empty
  | value (s : List Char)
deriving DecidableEq, Repr

/-- The KvsEngine capability the server is generic over: the results
the engine returns for each call the handler makes. -/
structure EngineM where
  get : List Char → Except Err (Option (List Char))
  set : List Char → List Char → Except Err Unit
  rm : List Char → Except Err Unit

/-- KvsServer::handle_command (src/network/server.rs lines 89-120).
The downcast of a failure::Error to KvsError succeeds exactly on the
KvsError constructors of Err; only KeyNotFound is given its own wire
code, everything else maps to Unknown. -/
def handleCommand (e : EngineM) : NetworkCommand → NetworkResponse
  | .get k =>
    match e.get k with
    | .ok (some v) => .value v
    | .ok none => .empty
    | .error _ => .error .unknown
  | .set k v =>
    match e.set k v with
    | .ok () => .empty
    | .error _ => .error .unknown
  | .rm k =>
    match e.rm k with
    | .ok () => .empty
    | .error err =>
      match err with
      | .keyNotFound => .error .keyNotFound
      | _ => .error .unknown

/-- One observable action of the per-connection writer: serialize a
response into the buffered writer, or flush it. -/
inductive WEvent where
  | wr (r : NetworkResponse)
  | fl
deriving DecidableEq, Repr

/-- KvsServer::handle_req (src/network/server.rs lines 59-87): the
connection's record stream is the list of decode results the stream
deserializer yields; a failed decode writes a CommandDeserialisation
error (without flushing), a decoded command is dispatched, written and
flushed. -/
def handleReq (e : EngineM) : List (Except Unit NetworkCommand) → List WEvent
  | [] => []
  | .error _ :: rest => .wr (.error .commandDeserialisation) :: handleReq e rest
  | .ok cmd :: rest => .wr (handleCommand e cmd) :: .fl :: handleReq e rest

/-- The responses serialized by a list of writer events, in order. -/
def responsesOf (evs : List WEvent) : List NetworkResponse :=
  evs.filterMap (fun ev => match ev with | .wr r => some r | .fl => none)

/-- The response the dispatch demands for one decode result. -/
def responseFor (e : EngineM) : Except Unit NetworkCommand → NetworkResponse
  | .error _ => .error .commandDeserialisation
  | .ok cmd => handleCommand e cmd

/-! ## Worker pool (src/thread_pool/shared_queue.rs)

The pool is modelled by the number of live workers and the transition
each queue message causes on the worker that receives it. A RunJob
whose job panics unwinds the worker; its Sentinel's Drop observes
thread::panicking() and spawns a replacement. A Shutdown message makes
the worker return normally; its Sentinel drops without panicking and
spawns nothing. -/

/-- enum ThreadPoolMessage, with the job abstracted to whether it
panics when invoked. -/
inductive ThreadPoolMessage where
  | runJob (panics : Bool)
  | shutdown
deriving DecidableEq, Repr

/-- Sentinel::drop: spawn one replacement worker iff the thread is
unwinding. -/
def sentinelRespawn (panicking : Bool) : Nat :=
  if panicking then 1 else 0

/-- Effect of one message on the live-worker count. -/
def poolStep (live : Nat) : ThreadPoolMessage → Nat
  | .runJob panics =>
    if panics then live - 1 + sentinelRespawn true else live
  | .shutdown => live - 1 + sentinelRespawn false

/-- Live workers after SharedQueueThreadPool::new(n) processes a
message sequence. -/
def poolRun (n : Nat) (msgs : List ThreadPoolMessage) : Nat :=
  msgs.foldl poolStep n

/-! # Theorems

## Codec round-trip and consumption lemmas -/

theorem parseStrAux_nil : parseStrAux [] = none := rfl

theorem parseStrAux_quote (rest : List Char) :
    parseStrAux ('"' :: rest) = some ([], rest) := by
  rw [parseStrAux.eq_def]
  split
  · rename_i heq; exact absurd heq (by simp)
  · rename_i r2 heq
    injection heq with h1 h2
    rw [h2]
  · rename_i c2 r2 heq
    injection heq with h1 h2
    exact absurd h1 (by decide)
  · rename_i c2 r2 hc hb heq
    injection heq with h1 h2
    exact absurd h1.symm (by intro hh; exact hc hh)

theorem parseStrAux_esc (c : Char) (rest : List Char) :
    parseStrAux ('\\' :: c :: rest) = (parseStrAux rest).map (fun p => (c :: p.1, p.2)) := by
  rw [parseStrAux.eq_def]
  split
  · rename_i heq; exact absurd heq (by simp)
  · rename_i r2 heq
    injection heq with h1 h2
    exact absurd h1 (by decide)
  · rename_i c2 r2 heq
    injection heq with h1 h2
    injection h2 with h3 h4
    rw [h3, h4]
  · rename_i c2 r2 hc hb heq
    injection heq with h1 h2
    exact (hb c rest h1.symm (by rw [← h2])).elim

theorem parseStrAux_other {c : Char} (h1 : c ≠ '"') (h2 : c ≠ '\\') (rest : List Char) :
    parseStrAux (c :: rest) = (parseStrAux rest).map (fun p => (c :: p.1, p.2)) := by
  rw [parseStrAux.eq_def]
  split
  · rename_i heq; exact absurd heq (by simp)
  · rename_i r2 heq
    injection heq with ha hb
    exact absurd ha h1
  · rename_i c2 r2 heq
    injection heq with ha hb
    exact absurd ha h2
  · rename_i c2 r2 hc hb heq
    injection heq with ha hb
    rw [ha, hb]

theorem dropLit_append (p rest : List Char) : dropLit p (p ++ rest) = some rest := by
  induction p with
  | nil => rfl
  | cons c p ih => simp [dropLit, ih]

theorem parseStrAux_escape (s rest : List Char) :
    parseStrAux (escapeStr s ++ ('"' :: rest)) = some (s, rest) := by
  induction s with
  | nil => simp [escapeStr, parseStrAux_quote]
  | cons c cs ih =>
    by_cases h : c = '"' ∨ c = '\\'
    · have he : escapeChar c = ['\\', c] := by simp [escapeChar, h]
      simp only [escapeStr, he, List.cons_append, List.nil_append]
      rw [parseStrAux_esc, ih]
      rfl
    · push_neg at h
      have he : escapeChar c = [c] := by simp [escapeChar, h.1, h.2]
      simp only [escapeStr, he, List.cons_append, List.nil_append]
      rw [parseStrAux_other h.1 h.2, ih]
      rfl

theorem parseJStr_encode (s rest : List Char) :
    parseJStr (encodeStr s ++ rest) = some (s, rest) := by
  simp only [encodeStr, List.cons_append, List.append_assoc]
  rw [parseJStr]
  exact parseStrAux_escape s rest

theorem parseVal_encode (v : Option (List Char)) (rest : List Char) :
    parseVal (encodeVal v ++ rest) = some (v, rest) := by
  cases v with
  | none => rfl
  | some s =>
    rw [parseVal.eq_def]
    split
    · rename_i heq
      simp [encodeVal, encodeStr] at heq
    · simp [encodeVal, parseJStr_encode]

theorem parseCmd_encode (c : Command) (rest : List Char) :
    parseCmd (encodeCmd c ++ rest) = some (c, rest) := by
  have h1 : encodeCmd c ++ rest =
      keyLit ++ (encodeStr c.key ++ (sepLit ++ (encodeVal c.value ++ (['}'] ++ rest)))) := by
    simp [encodeCmd, List.append_assoc]
  rw [h1]
  simp only [parseCmd, dropLit_append, parseJStr_encode, parseVal_encode, Option.some_bind]
  simp [dropLit_append]

theorem encodeCmd_inj {a b : Command} (h : encodeCmd a = encodeCmd b) : a = b := by
  have ha := parseCmd_encode a []
  have hb := parseCmd_encode b []
  rw [h] at ha
  rw [ha] at hb
  simp only [Option.some.injEq, Prod.mk.injEq, and_true] at hb
  exact hb

theorem fromReaderOne_encode (c : Command) : fromReaderOne (encodeCmd c) = .ok c := by
  have h := parseCmd_encode c []
  rw [List.append_nil] at h
  rw [fromReaderOne, h]
  rfl

/-! ## encodeList lemmas -/

theorem encodeList_nil : encodeList [] = [] := rfl

theorem encodeList_cons (c : Command) (cs : List Command) :
    encodeList (c :: cs) = encodeCmd c ++ encodeList cs := by
  simp [encodeList]

theorem encodeList_append (cs ds : List Command) :
    encodeList (cs ++ ds) = encodeList cs ++ encodeList ds := by
  simp [encodeList]

theorem encodeCmd_length_pos (c : Command) : 0 < (encodeCmd c).length := by
  simp [encodeCmd, keyLit]

theorem encodeCmd_head (c : Command) : ∃ t, encodeCmd c = '{' :: t := by
  refine ⟨['"', 'k', '"', ':'] ++ encodeStr c.key ++ sepLit ++ encodeVal c.value ++ ['}'], ?_⟩
  simp [encodeCmd, keyLit]

/-! ## Byte-range (slice) lemmas -/

theorem slice_append_left {a : List Char} (b : List Char) {off sz : Nat}
    (h : off + sz ≤ a.length) :
    ((a ++ b).drop off).take sz = (a.drop off).take sz := by
  rw [List.drop_append_of_le_length (by omega)]
  rw [List.take_append_of_le_length (by simp; omega)]

theorem slice_at (a t b : List Char) :
    ((a ++ (t ++ b)).drop a.length).take t.length = t := by
  rw [List.drop_left, List.take_left]

/-! ## logGet lemmas -/

theorem foldl_logGet_not_mem {k : List Char} :
    ∀ {ds : List Command} (a : Option (List Char)), k ∉ ds.map (fun c => c.key) →
      ds.foldl (fun acc c => if c.key = k then c.value else acc) a = a := by
  intro ds
  induction ds with
  | nil => intro a h; rfl
  | cons c cs ih =>
    intro a h
    simp only [List.map_cons, List.mem_cons] at h
    push_neg at h
    have hck : ¬ c.key = k := fun hh => h.1 hh.symm
    simp only [List.foldl_cons, if_neg hck]
    exact ih a h.2

theorem foldl_logGet_mem_nodup {k : List Char} {w : Option (List Char)} :
    ∀ {ds : List Command} (a : Option (List Char)),
      (ds.map (fun c => c.key)).Nodup → (⟨k, w⟩ : Command) ∈ ds →
      ds.foldl (fun acc c => if c.key = k then c.value else acc) a = w := by
  intro ds
  induction ds with
  | nil => intro a hnd hm; cases hm
  | cons c cs ih =>
    intro a hnd hm
    simp only [List.map_cons, List.nodup_cons] at hnd
    cases hm with
    | head =>
      simp only [List.foldl_cons, if_pos rfl]
      exact foldl_logGet_not_mem _ hnd.1
    | tail _ hm2 =>
      have hk : c.key ≠ k := by
        intro hk
        exact hnd.1 (hk ▸ (List.mem_map.mpr ⟨⟨k, w⟩, hm2, rfl⟩))
      simp only [List.foldl_cons]
      exact ih _ hnd.2 hm2

theorem logGet_nil (k : List Char) : logGet [] k = none := rfl

theorem logGet_not_mem {cmds : List Command} {k : List Char}
    (h : k ∉ cmds.map (fun c => c.key)) : logGet cmds k = none :=
  foldl_logGet_not_mem none h

theorem logGet_mem_nodup {cmds : List Command} {k : List Char} {w : Option (List Char)}
    (hnd : (cmds.map (fun c => c.key)).Nodup) (hm : (⟨k, w⟩ : Command) ∈ cmds) :
    logGet cmds k = w :=
  foldl_logGet_mem_nodup none hnd hm

theorem logGet_concat (cs : List Command) (c : Command) (k : List Char) :
    logGet (cs ++ [c]) k = if c.key = k then c.value else logGet cs k := by
  simp [logGet, List.foldl_append]

theorem logGet_append_right_none {cs ds : List Command} {k : List Char}
    (h : k ∉ ds.map (fun c => c.key)) : logGet (cs ++ ds) k = logGet cs k := by
  simp only [logGet, List.foldl_append]
  exact foldl_logGet_not_mem _ h

/-! ## Association-list lemmas -/

theorem kGet_cons {ν : Type} (i : List Char) (x : ν) (m : List (List Char × ν)) (k : List Char) :
    kGet ((i, x) :: m) k = if i = k then some x else kGet m k := rfl

theorem kPut_cons {ν : Type} (i : List Char) (x : ν) (m : List (List Char × ν))
    (k : List Char) (v : ν) :
    kPut ((i, x) :: m) k v = if i = k then (k, v) :: m else (i, x) :: kPut m k v := rfl

theorem kDel_cons {ν : Type} (i : List Char) (x : ν) (m : List (List Char × ν)) (k : List Char) :
    kDel ((i, x) :: m) k = if i = k then kDel m k else (i, x) :: kDel m k := rfl

theorem aGet_cons {ν : Type} (i : Nat) (x : ν) (m : List (Nat × ν)) (k : Nat) :
    aGet ((i, x) :: m) k = if i = k then some x else aGet m k := rfl

theorem aPut_cons {ν : Type} (i : Nat) (x : ν) (m : List (Nat × ν)) (k : Nat) (v : ν) :
    aPut ((i, x) :: m) k v = if i = k then (k, v) :: m else (i, x) :: aPut m k v := rfl

theorem aDel_cons {ν : Type} (i : Nat) (x : ν) (m : List (Nat × ν)) (k : Nat) :
    aDel ((i, x) :: m) k = if i = k then aDel m k else (i, x) :: aDel m k := rfl

theorem fRemove_cons (i : Nat) (x : List Char) (fs : Files) (id : Nat) :
    fRemove ((i, x) :: fs) id = if i = id then fRemove fs id else (i, x) :: fRemove fs id := rfl

theorem aMod_cons {ν : Type} (i : Nat) (x : ν) (m : List (Nat × ν)) (id : Nat) (f : ν → ν) :
    aMod ((i, x) :: m) id f = (if i = id then (i, f x) else (i, x)) :: aMod m id f := by
  simp only [aMod, List.map_cons]

theorem kGet_kPut_self {ν : Type} (m : List (List Char × ν)) (k : List Char) (v : ν) :
    kGet (kPut m k v) k = some v := by
  induction m with
  | nil => simp [kPut, kGet]
  | cons p m ih =>
    obtain ⟨i, x⟩ := p
    rw [kPut_cons]
    by_cases h : i = k
    · rw [if_pos h, kGet_cons, if_pos rfl]
    · rw [if_neg h, kGet_cons, if_neg h]
      exact ih

theorem kGet_kPut_ne {ν : Type} (m : List (List Char × ν)) {k k2 : List Char} (v : ν)
    (h : k2 ≠ k) : kGet (kPut m k v) k2 = kGet m k2 := by
  have hk : ¬ k = k2 := fun hh => h hh.symm
  induction m with
  | nil => simp [kPut, kGet, hk]
  | cons p m ih =>
    obtain ⟨i, x⟩ := p
    rw [kPut_cons]
    by_cases hp : i = k
    · rw [if_pos hp, kGet_cons, if_neg hk, kGet_cons, if_neg (by rw [hp]; exact hk)]
    · rw [if_neg hp, kGet_cons, kGet_cons, ih]

theorem kGet_kDel_self {ν : Type} (m : List (List Char × ν)) (k : List Char) :
    kGet (kDel m k) k = none := by
  induction m with
  | nil => rfl
  | cons p m ih =>
    obtain ⟨i, x⟩ := p
    rw [kDel_cons]
    by_cases h : i = k
    · rw [if_pos h]; exact ih
    · rw [if_neg h, kGet_cons, if_neg h]; exact ih

theorem kGet_kDel_ne {ν : Type} (m : List (List Char × ν)) {k k2 : List Char}
    (h : k2 ≠ k) : kGet (kDel m k) k2 = kGet m k2 := by
  induction m with
  | nil => rfl
  | cons p m ih =>
    obtain ⟨i, x⟩ := p
    rw [kDel_cons]
    by_cases hp : i = k
    · rw [if_pos hp, kGet_cons, if_neg (by rw [hp]; exact fun hh => h hh.symm), ih]
    · rw [if_neg hp, kGet_cons, kGet_cons, ih]

theorem kGet_none_not_mem {ν : Type} {m : List (List Char × ν)} {k : List Char}
    (h : kGet m k = none) : k ∉ m.map (fun p => p.1) := by
  induction m with
  | nil => simp
  | cons p m ih =>
    obtain ⟨i, x⟩ := p
    rw [kGet_cons] at h
    split at h
    · exact absurd h (by simp)
    · rename_i hp
      simp only [List.map_cons, List.mem_cons]
      push_neg
      exact ⟨fun hh => hp hh.symm, ih h⟩

theorem kGet_isSome_mem {ν : Type} {m : List (List Char × ν)} {k : List Char} :
    (kGet m k).isSome → k ∈ m.map (fun p => p.1) := by
  induction m with
  | nil => intro h; simp [kGet] at h
  | cons p m ih =>
    intro h
    obtain ⟨i, x⟩ := p
    rw [kGet_cons] at h
    by_cases hp : i = k
    · simp only [List.map_cons, List.mem_cons]
      exact Or.inl hp.symm
    · rw [if_neg hp] at h
      simp only [List.map_cons, List.mem_cons]
      exact Or.inr (ih h)

theorem kGet_of_mem_nodup {ν : Type} {m : List (List Char × ν)} {k : List Char} {v : ν}
    (hnd : (m.map (fun p => p.1)).Nodup) (hm : (k, v) ∈ m) : kGet m k = some v := by
  induction m with
  | nil => cases hm
  | cons p m ih =>
    simp only [List.map_cons, List.nodup_cons] at hnd
    cases hm with
    | head => simp [kGet]
    | tail _ hm2 =>
      obtain ⟨i, x⟩ := p
      have hp : i ≠ k := by
        intro hh
        exact hnd.1 (hh ▸ (List.mem_map.mpr ⟨(k, v), hm2, rfl⟩))
      rw [kGet_cons, if_neg hp]
      exact ih hnd.2 hm2

theorem kPut_keys_of_mem {ν : Type} {m : List (List Char × ν)} {k : List Char} (v : ν)
    (h : k ∈ m.map (fun p => p.1)) :
    (kPut m k v).map (fun p => p.1) = m.map (fun p => p.1) := by
  induction m with
  | nil => simp at h
  | cons p m ih =>
    obtain ⟨i, x⟩ := p
    rw [kPut_cons]
    by_cases hp : i = k
    · rw [if_pos hp]
      simp [hp]
    · rw [if_neg hp]
      simp only [List.map_cons, List.mem_cons] at h
      rcases h with h | h
      · exact absurd h.symm hp
      · simp [ih h]

theorem kPut_keys_of_not_mem {ν : Type} {m : List (List Char × ν)} {k : List Char} (v : ν)
    (h : k ∉ m.map (fun p => p.1)) :
    (kPut m k v).map (fun p => p.1) = m.map (fun p => p.1) ++ [k] := by
  induction m with
  | nil => simp [kPut]
  | cons p m ih =>
    obtain ⟨i, x⟩ := p
    simp only [List.map_cons, List.mem_cons] at h
    push_neg at h
    rw [kPut_cons, if_neg (fun hh => h.1 hh.symm)]
    simp [ih h.2]

theorem kPut_keys_nodup {ν : Type} {m : List (List Char × ν)} {k : List Char} (v : ν)
    (hnd : (m.map (fun p => p.1)).Nodup) : ((kPut m k v).map (fun p => p.1)).Nodup := by
  by_cases h : k ∈ m.map (fun p => p.1)
  · rw [kPut_keys_of_mem v h]; exact hnd
  · rw [kPut_keys_of_not_mem v h]
    simp only [List.nodup_append, List.nodup_cons]
    refine ⟨hnd, by simp, ?_⟩
    intro a ha hb
    simp only [List.mem_singleton] at hb
    exact h (hb ▸ ha)

theorem kDel_sublist {ν : Type} (m : List (List Char × ν)) (k : List Char) :
    (kDel m k).Sublist m := by
  induction m with
  | nil => simp [kDel]
  | cons p m ih =>
    obtain ⟨i, x⟩ := p
    rw [kDel_cons]
    by_cases hp : i = k
    · rw [if_pos hp]
      exact ih.cons _
    · rw [if_neg hp]
      exact ih.cons₂ _

theorem kDel_keys_nodup {ν : Type} {m : List (List Char × ν)} (k : List Char)
    (hnd : (m.map (fun p => p.1)).Nodup) : ((kDel m k).map (fun p => p.1)).Nodup :=
  hnd.sublist ((kDel_sublist m k).map (fun p => p.1))

theorem aGet_aPut_self {ν : Type} (m : List (Nat × ν)) (k : Nat) (v : ν) :
    aGet (aPut m k v) k = some v := by
  induction m with
  | nil => simp [aPut, aGet]
  | cons p m ih =>
    obtain ⟨i, x⟩ := p
    rw [aPut_cons]
    by_cases h : i = k
    · rw [if_pos h, aGet_cons, if_pos rfl]
    · rw [if_neg h, aGet_cons, if_neg h]
      exact ih

theorem aGet_aPut_ne {ν : Type} (m : List (Nat × ν)) {k k2 : Nat} (v : ν)
    (h : k2 ≠ k) : aGet (aPut m k v) k2 = aGet m k2 := by
  have hk : ¬ k = k2 := fun hh => h hh.symm
  induction m with
  | nil => simp [aPut, aGet, hk]
  | cons p m ih =>
    obtain ⟨i, x⟩ := p
    rw [aPut_cons]
    by_cases hp : i = k
    · rw [if_pos hp, aGet_cons, if_neg hk, aGet_cons, if_neg (by rw [hp]; exact hk)]
    · rw [if_neg hp, aGet_cons, aGet_cons, ih]

theorem aPut_fresh {ν : Type} {m : List (Nat × ν)} {k : Nat} (v : ν)
    (h : aGet m k = none) : aPut m k v = m ++ [(k, v)] := by
  induction m with
  | nil => rfl
  | cons p m ih =>
    obtain ⟨i, x⟩ := p
    rw [aGet_cons] at h
    split at h
    · exact absurd h (by simp)
    · rename_i hp
      rw [aPut_cons, if_neg hp]
      simp [ih h]

theorem aGet_aDel_self {ν : Type} (m : List (Nat × ν)) (k : Nat) :
    aGet (aDel m k) k = none := by
  induction m with
  | nil => rfl
  | cons p m ih =>
    obtain ⟨i, x⟩ := p
    rw [aDel_cons]
    by_cases h : i = k
    · rw [if_pos h]; exact ih
    · rw [if_neg h, aGet_cons, if_neg h]; exact ih

theorem aGet_aDel_ne {ν : Type} (m : List (Nat × ν)) {k k2 : Nat}
    (h : k2 ≠ k) : aGet (aDel m k) k2 = aGet m k2 := by
  induction m with
  | nil => rfl
  | cons p m ih =>
    obtain ⟨i, x⟩ := p
    rw [aDel_cons]
    by_cases hp : i = k
    · rw [if_pos hp, aGet_cons, if_neg (by rw [hp]; exact fun hh => h hh.symm), ih]
    · rw [if_neg hp, aGet_cons, aGet_cons, ih]

theorem aDel_sublist {ν : Type} (m : List (Nat × ν)) (k : Nat) :
    (aDel m k).Sublist m := by
  induction m with
  | nil => simp [aDel]
  | cons p m ih =>
    obtain ⟨i, x⟩ := p
    rw [aDel_cons]
    by_cases hp : i = k
    · rw [if_pos hp]
      exact ih.cons _
    · rw [if_neg hp]
      exact ih.cons₂ _

theorem aGet_aMod_self {ν : Type} (m : List (Nat × ν)) (k : Nat) (f : ν → ν) :
    aGet (aMod m k f) k = (aGet m k).map f := by
  induction m with
  | nil => rfl
  | cons p m ih =>
    obtain ⟨i, x⟩ := p
    by_cases h : i = k
    · rw [aMod_cons, if_pos h, aGet_cons, if_pos h, aGet_cons, if_pos h]
      rfl
    · rw [aMod_cons, if_neg h, aGet_cons, if_neg h, aGet_cons, if_neg h]
      exact ih

theorem aGet_aMod_ne {ν : Type} (m : List (Nat × ν)) {k k2 : Nat} (f : ν → ν)
    (h : k2 ≠ k) : aGet (aMod m k f) k2 = aGet m k2 := by
  induction m with
  | nil => rfl
  | cons p m ih =>
    obtain ⟨i, x⟩ := p
    by_cases hp : i = k
    · rw [aMod_cons, if_pos hp, aGet_cons, aGet_cons]
      by_cases hq : i = k2
      · exact absurd (hq.symm.trans hp) h
      · rw [if_neg hq, if_neg hq, ih]
    · rw [aMod_cons, if_neg hp, aGet_cons, aGet_cons]
      by_cases hq : i = k2
      · rw [if_pos hq, if_pos hq]
      · rw [if_neg hq, if_neg hq, ih]

theorem aMod_keys {ν : Type} (m : List (Nat × ν)) (k : Nat) (f : ν → ν) :
    (aMod m k f).map (fun p => p.1) = m.map (fun p => p.1) := by
  simp only [aMod, List.map_map]
  apply List.map_congr_left
  intro p hp
  by_cases h : p.1 = k <;> simp [h]

theorem aMod_aMod {ν : Type} (m : List (Nat × ν)) (k : Nat) (f g : ν → ν) :
    aMod (aMod m k f) k g = aMod m k (fun x => g (f x)) := by
  simp only [aMod, List.map_map]
  apply List.map_congr_left
  intro p hp
  by_cases h : p.1 = k <;> simp [h]

theorem aMod_congr_id {ν : Type} (m : List (Nat × ν)) (k : Nat) {f : ν → ν}
    (hf : ∀ x, f x = x) : aMod m k f = m := by
  simp only [aMod]
  have he : ∀ p ∈ m, (if p.1 = k then (p.1, f p.2) else p) = p := by
    intro p hp
    by_cases h : p.1 = k
    · rw [if_pos h, hf]
    · rw [if_neg h]
  rw [List.map_congr_left he]
  exact List.map_id m

theorem aGet_none_not_mem {ν : Type} {m : List (Nat × ν)} {k : Nat}
    (h : aGet m k = none) : k ∉ m.map (fun p => p.1) := by
  induction m with
  | nil => simp
  | cons p m ih =>
    obtain ⟨i, x⟩ := p
    rw [aGet_cons] at h
    split at h
    · exact absurd h (by simp)
    · rename_i hp
      simp only [List.map_cons, List.mem_cons]
      push_neg
      exact ⟨fun hh => hp hh.symm, ih h⟩

theorem aGet_isSome_iff_mem {ν : Type} (m : List (Nat × ν)) (k : Nat) :
    (aGet m k).isSome ↔ k ∈ m.map (fun p => p.1) := by
  induction m with
  | nil => simp [aGet]
  | cons p m ih =>
    obtain ⟨i, x⟩ := p
    rw [aGet_cons]
    simp only [List.map_cons, List.mem_cons]
    by_cases h : i = k
    · rw [if_pos h]
      simp only [Option.isSome_some, true_iff]
      exact Or.inl h.symm
    · rw [if_neg h, ih]
      constructor
      · exact fun hh => Or.inr hh
      · rintro (hh | hh)
        · exact absurd hh.symm h
        · exact hh

theorem aGet_of_mem_nodup {ν : Type} {m : List (Nat × ν)} {k : Nat} {v : ν}
    (hnd : (m.map (fun p => p.1)).Nodup) (hm : (k, v) ∈ m) : aGet m k = some v := by
  induction m with
  | nil => cases hm
  | cons p m ih =>
    simp only [List.map_cons, List.nodup_cons] at hnd
    cases hm with
    | head => simp [aGet]
    | tail _ hm2 =>
      obtain ⟨i, x⟩ := p
      have hp : i ≠ k := by
        intro hh
        exact hnd.1 (hh ▸ (List.mem_map.mpr ⟨(k, v), hm2, rfl⟩))
      rw [aGet_cons, if_neg hp]
      exact ih hnd.2 hm2

theorem aGet_mem_of_eq_some {ν : Type} {m : List (Nat × ν)} {k : Nat} {v : ν}
    (h : aGet m k = some v) : (k, v) ∈ m := by
  induction m with
  | nil => simp [aGet] at h
  | cons p m ih =>
    obtain ⟨i, x⟩ := p
    rw [aGet_cons] at h
    split at h
    · rename_i hp
      injection h with hv
      rw [← hp, ← hv]
      exact List.mem_cons_self _ _
    · exact List.mem_cons_of_mem _ (ih h)

theorem aGet_append_left {ν : Type} {m : List (Nat × ν)} (m2 : List (Nat × ν)) {k : Nat}
    {v : ν} (h : aGet m k = some v) : aGet (m ++ m2) k = some v := by
  induction m with
  | nil => simp [aGet] at h
  | cons p m ih =>
    obtain ⟨i, x⟩ := p
    rw [aGet_cons] at h
    rw [List.cons_append, aGet_cons]
    split
    · rename_i hp
      rw [if_pos hp] at h
      exact h
    · rename_i hp
      rw [if_neg hp] at h
      exact ih h

theorem aGet_append_right {ν : Type} {m : List (Nat × ν)} (m2 : List (Nat × ν)) {k : Nat}
    (h : aGet m k = none) : aGet (m ++ m2) k = aGet m2 k := by
  induction m with
  | nil => rfl
  | cons p m ih =>
    obtain ⟨i, x⟩ := p
    rw [aGet_cons] at h
    split at h
    · exact absurd h (by simp)
    · rename_i hp
      rw [List.cons_append, aGet_cons, if_neg hp]
      exact ih h

theorem aGet_fRemove (fs : Files) (id id2 : Nat) :
    aGet (fRemove fs id) id2 = if id2 = id then none else aGet fs id2 := by
  induction fs with
  | nil => simp [fRemove, aGet]
  | cons p fs ih =>
    obtain ⟨i, x⟩ := p
    rw [fRemove_cons]
    by_cases hp : i = id
    · rw [if_pos hp, ih]
      by_cases h2 : id2 = id
      · rw [if_pos h2, if_pos h2]
      · rw [if_neg h2, if_neg h2, aGet_cons,
          if_neg (by rw [hp]; exact fun hh => h2 hh.symm)]
    · rw [if_neg hp, aGet_cons]
      by_cases hq : i = id2
      · rw [if_pos hq, if_neg (by rw [← hq]; exact hp), aGet_cons, if_pos hq]
      · rw [if_neg hq, ih, aGet_cons]
        by_cases h2 : id2 = id
        · rw [if_pos h2, if_pos h2]
        · rw [if_neg h2, if_neg h2, if_neg hq]

theorem fRemove_eq_filter (fs : Files) (id : Nat) :
    fRemove fs id = fs.filter (fun p => decide ¬ p.1 = id) := by
  induction fs with
  | nil => rfl
  | cons p fs ih =>
    obtain ⟨i, x⟩ := p
    rw [fRemove_cons]
    by_cases hp : i = id
    · rw [if_pos hp, ih, List.filter_cons, if_neg (by simp [hp])]
    · rw [if_neg hp, ih, List.filter_cons, if_pos (by simp [hp])]

theorem aDel_eq_filter {ν : Type} (m : List (Nat × ν)) (id : Nat) :
    aDel m id = m.filter (fun p => decide ¬ p.1 = id) := by
  induction m with
  | nil => rfl
  | cons p m ih =>
    obtain ⟨i, x⟩ := p
    rw [aDel_cons]
    by_cases hp : i = id
    · rw [if_pos hp, ih, List.filter_cons, if_neg (by simp [hp])]
    · rw [if_neg hp, ih, List.filter_cons, if_pos (by simp [hp])]

theorem wCreate_present {fs : Files} {id : Nat} (h : (aGet fs id).isSome) :
    wCreate fs id = fs := by
  simp [wCreate, h]

theorem wCreate_fresh {fs : Files} {id : Nat} (h : aGet fs id = none) :
    wCreate fs id = fs ++ [(id, [])] := by
  simp [wCreate, h]

theorem fAppend_present {fs : Files} {id : Nat} (d : List Char)
    (h : (aGet fs id).isSome) : fAppend fs id d = aMod fs id (fun c => c ++ d) := by
  simp [fAppend, h]

theorem fAppend_last {fs0 : Files} {id : Nat} {c : List Char} (d : List Char)
    (h : aGet fs0 id = none) :
    fAppend (fs0 ++ [(id, c)]) id d = fs0 ++ [(id, c ++ d)] := by
  have hs : (aGet (fs0 ++ [(id, c)]) id).isSome := by
    rw [aGet_append_right _ h]
    simp [aGet]
  rw [fAppend_present d hs]
  simp only [aMod, List.map_append]
  have he : ∀ p ∈ fs0, (if p.1 = id then (p.1, p.2 ++ d) else p) = p := by
    intro p hp
    have hne : p.1 ≠ id := by
      intro hh
      have := aGet_none_not_mem h
      exact this (hh ▸ List.mem_map.mpr ⟨p, hp, rfl⟩)
    rw [if_neg hne]
  congr 1
  · rw [List.map_congr_left he]
    exact List.map_id fs0
  · simp

/-! ## indexMatches lemmas -/

theorem indexMatches_nil (fs : Files) : indexMatches fs [] [] := by
  intro k
  constructor
  · intro vi h
    simp [kGet] at h
  · intro _
    rfl

theorem indexMatches_extend {fs fs2 : Files} {idx : Index} {hist : List Command}
    (hext : ∀ id c, aGet fs id = some c → aGet fs2 id = some c)
    (hm : indexMatches fs idx hist) : indexMatches fs2 idx hist := by
  intro k
  refine ⟨?_, (hm k).2⟩
  intro vi h
  obtain ⟨v, ⟨content, hc, hb, hsl⟩, hlog⟩ := (hm k).1 vi h
  exact ⟨v, ⟨content, hext _ _ hc, hb, hsl⟩, hlog⟩

theorem indexMatches_put {fs : Files} {idx : Index} {hist : List Command}
    {k : List Char} {vi : ValueInfo} {v : List Char}
    (hm : indexMatches fs idx hist) (hep : entryPoints fs k vi v) :
    indexMatches fs (kPut idx k vi) (hist ++ [⟨k, some v⟩]) := by
  intro k2
  by_cases hk : k2 = k
  · subst hk
    constructor
    · intro vi2 h
      rw [kGet_kPut_self] at h
      injection h with h
      subst h
      exact ⟨v, hep, by rw [logGet_concat]; simp⟩
    · intro h
      rw [kGet_kPut_self] at h
      exact absurd h (by simp)
  · constructor
    · intro vi2 h
      rw [kGet_kPut_ne _ _ hk] at h
      obtain ⟨v2, hep2, hlog2⟩ := (hm k2).1 vi2 h
      refine ⟨v2, hep2, ?_⟩
      rw [logGet_concat]
      simp only []
      rw [if_neg (fun hh => hk hh.symm)]
      exact hlog2
    · intro h
      rw [kGet_kPut_ne _ _ hk] at h
      have := (hm k2).2 h
      rw [logGet_concat]
      simp only []
      rw [if_neg (fun hh => hk hh.symm)]
      exact this

theorem indexMatches_del {fs : Files} {idx : Index} {hist : List Command}
    {k : List Char} (hm : indexMatches fs idx hist) :
    indexMatches fs (kDel idx k) (hist ++ [⟨k, none⟩]) := by
  intro k2
  by_cases hk : k2 = k
  · subst hk
    constructor
    · intro vi2 h
      rw [kGet_kDel_self] at h
      exact absurd h (by simp)
    · intro _
      rw [logGet_concat]
      simp
  · constructor
    · intro vi2 h
      rw [kGet_kDel_ne _ hk] at h
      obtain ⟨v2, hep2, hlog2⟩ := (hm k2).1 vi2 h
      refine ⟨v2, hep2, ?_⟩
      rw [logGet_concat]
      simp only []
      rw [if_neg (fun hh => hk hh.symm)]
      exact hlog2
    · intro h
      rw [kGet_kDel_ne _ hk] at h
      have := (hm k2).2 h
      rw [logGet_concat]
      simp only []
      rw [if_neg (fun hh => hk hh.symm)]
      exact this

/-! ## Characterization of get -/

theorem get_eq_of_matches (s : Store) (hist : List Command)
    (hsync : ∀ id, (aGet s.readers id).isSome ↔ (aGet s.files id).isSome)
    (hm : indexMatches s.files s.index hist) (k : List Char) :
    (get s k).1 = .ok (logGet hist k) := by
  cases hidx : kGet s.index k with
  | none =>
    have habs := (hm k).2 hidx
    simp only [get, hidx, habs]
  | some vi =>
    obtain ⟨v, ⟨content, hc, hb, hsl⟩, hlog⟩ := (hm k).1 vi hidx
    have hrd : (aGet s.readers vi.file_id).isSome := by
      rw [hsync]
      rw [hc]
      simp
    cases hrdv : aGet s.readers vi.file_id with
    | none => rw [hrdv] at hrd; simp at hrd
    | some pos =>
      simp only [get, hidx, hrdv, hc, hsl, fromReaderOne_encode]
      rw [hlog]

/-- The state after get: unchanged, or with one reader repositioned. -/
theorem get_state (s : Store) (k : List Char) :
    (get s k).2 = s ∨
      ∃ fid pos, (get s k).2 = { s with readers := rSeek s.readers fid pos } := by
  cases hidx : kGet s.index k with
  | none => left; simp only [get, hidx]
  | some vi =>
    cases hrd : aGet s.readers vi.file_id with
    | none => left; simp only [get, hidx, hrd]
    | some pos =>
      cases hc : aGet s.files vi.file_id with
      | none => left; simp only [get, hidx, hrd, hc]
      | some content =>
        right
        refine ⟨vi.file_id,
          vi.file_offset + ((content.drop vi.file_offset).take vi.size).length, ?_⟩
        simp only [get, hidx, hrd, hc]
        cases hfr : fromReaderOne ((content.drop vi.file_offset).take vi.size) with
        | error e => simp only [hfr]
        | ok cmd =>
          cases hv : cmd.value with
          | none => simp only [hfr, hv]
          | some v => simp only [hfr, hv]

theorem get_inv {s : Store} (h : Inv s) (k : List Char) : Inv (get s k).2 := by
  rcases get_state s k with hs | ⟨fid, pos, hs⟩
  · rw [hs]; exact h
  · rw [hs]
    refine ⟨h.writerLast, h.ascIds, h.idsLe, ?_, ?_, h.kNodup, h.wf⟩
    · intro id
      simp only []
      rw [show (aGet (rSeek s.readers fid pos) id).isSome =
          (aGet s.readers id).isSome from ?_]
      · exact h.sync id
      · by_cases hid : id = fid
        · subst hid
          rw [rSeek, aGet_aMod_self]
          cases aGet s.readers id <;> rfl
        · rw [rSeek, aGet_aMod_ne _ _ hid]
    · simp only [rSeek]
      rw [aMod_keys]
      exact h.rNodup

/-! ## Replay correctness (load_file_into_index and open) -/

theorem loadRecords_step (fid f : Nat) {l : List Char} (hne : l ≠ []) (off : Nat)
    (idx : Index) (unc : Nat) :
    loadRecords fid (f + 1) l off idx unc =
      match parseCmd l with
      | none => .error .serde
      | some (cmd, rest) =>
        let cmdSize := l.length - rest.length
        let unc1 :=
          match kGet idx cmd.key with
          | some vi => unc + vi.size
          | none => unc
        match cmd.value with
        | some _ =>
          loadRecords fid f rest (off + cmdSize) (kPut idx cmd.key ⟨fid, off, cmdSize⟩) unc1
        | none =>
          loadRecords fid f rest (off + cmdSize) (kDel idx cmd.key) (unc1 + cmdSize) := by
  cases l with
  | nil => exact absurd rfl hne
  | cons c0 l0 => rfl

theorem loadRecords_spec :
    ∀ (todo : List Command) (fuel : Nat) (fs : Files) (fid : Nat) (pre : List Char)
      (idx : Index) (unc : Nat) (hist : List Command),
      aGet fs fid = some (pre ++ encodeList todo) →
      (encodeList todo).length < fuel →
      indexMatches fs idx hist →
      (idx.map (fun p => p.1)).Nodup →
      ∃ unc2 idx2,
        loadRecords fid fuel (encodeList todo) pre.length idx unc = .ok (unc2, idx2) ∧
        indexMatches fs idx2 (hist ++ todo) ∧
        (idx2.map (fun p => p.1)).Nodup := by
  intro todo
  induction todo with
  | nil =>
    intro fuel fs fid pre idx unc hist hfs hfuel hm hnd
    cases fuel with
    | zero => exact absurd hfuel (by omega)
    | succ f =>
      refine ⟨unc, idx, ?_, ?_, hnd⟩
      · rfl
      · rw [List.append_nil]
        exact hm
  | cons c rest ih =>
    obtain ⟨ck, cv⟩ := c
    intro fuel fs fid pre idx unc hist hfs hfuel hm hnd
    cases fuel with
    | zero => exact absurd hfuel (by omega)
    | succ f =>
      have hne : encodeList (⟨ck, cv⟩ :: rest) ≠ [] := by
        rw [encodeList_cons]
        obtain ⟨t, ht⟩ := encodeCmd_head ⟨ck, cv⟩
        rw [ht]
        simp
      rw [loadRecords_step fid f hne]
      rw [show encodeList (⟨ck, cv⟩ :: rest) = encodeCmd ⟨ck, cv⟩ ++ encodeList rest from
        encodeList_cons _ _]
      rw [parseCmd_encode]
      have hsize : (encodeCmd ⟨ck, cv⟩ ++ encodeList rest).length - (encodeList rest).length =
          (encodeCmd ⟨ck, cv⟩).length := by
        rw [List.length_append]
        omega
      have hfs2 : aGet fs fid = some ((pre ++ encodeCmd ⟨ck, cv⟩) ++ encodeList rest) := by
        rw [hfs, encodeList_cons, List.append_assoc]
      have hfuel2 : (encodeList rest).length < f := by
        rw [encodeList_cons, List.length_append] at hfuel
        have := encodeCmd_length_pos ⟨ck, cv⟩
        omega
      have hoff : pre.length + ((encodeCmd ⟨ck, cv⟩ ++ encodeList rest).length -
          (encodeList rest).length) = (pre ++ encodeCmd ⟨ck, cv⟩).length := by
        rw [hsize, List.length_append]
      cases cv with
      | some v =>
        have hep : entryPoints fs ck
            ⟨fid, pre.length, (encodeCmd ⟨ck, some v⟩ ++ encodeList rest).length -
              (encodeList rest).length⟩ v := by
          refine ⟨pre ++ encodeList (⟨ck, some v⟩ :: rest), hfs, ?_, ?_⟩
          · simp only [hsize, encodeList_cons, List.length_append]
            omega
          · simp only [hsize]
            rw [encodeList_cons]
            exact slice_at pre (encodeCmd ⟨ck, some v⟩) (encodeList rest)
        have hm2 := @indexMatches_put _ _ _ _
          ⟨fid, pre.length, (encodeCmd ⟨ck, some v⟩ ++ encodeList rest).length -
            (encodeList rest).length⟩ _ hm hep
        obtain ⟨unc2, idx2, heq, hm3, hnd3⟩ :=
          ih f fs fid (pre ++ encodeCmd ⟨ck, some v⟩)
            (kPut idx ck ⟨fid, pre.length, (encodeCmd ⟨ck, some v⟩ ++ encodeList rest).length -
              (encodeList rest).length⟩)
            (match kGet idx ck with
             | some vi => unc + vi.size
             | none => unc)
            (hist ++ [⟨ck, some v⟩]) hfs2 hfuel2 hm2 (kPut_keys_nodup _ hnd)
        refine ⟨unc2, idx2, ?_, ?_, hnd3⟩
        · rw [← hoff] at heq
          exact heq
        · rw [List.append_assoc] at hm3
          exact hm3
      | none =>
        have hm2 := @indexMatches_del _ _ _ ck hm
        obtain ⟨unc2, idx2, heq, hm3, hnd3⟩ :=
          ih f fs fid (pre ++ encodeCmd ⟨ck, none⟩) (kDel idx ck)
            ((match kGet idx ck with
              | some vi => unc + vi.size
              | none => unc) +
              ((encodeCmd ⟨ck, (none : Option (List Char))⟩ ++ encodeList rest).length -
                (encodeList rest).length))
            (hist ++ [⟨ck, none⟩]) hfs2 hfuel2 hm2 (kDel_keys_nodup _ hnd)
        refine ⟨unc2, idx2, ?_, ?_, hnd3⟩
        · rw [← hoff] at heq
          exact heq
        · rw [List.append_assoc] at hm3
          exact hm3

theorem aGet_append_one_none {ν : Type} {m : List (Nat × ν)} (id0 : Nat) (v : ν) {id : Nat}
    (h : aGet m id = none) (hne : id ≠ id0) : aGet (m ++ [(id0, v)]) id = none := by
  rw [aGet_append_right _ h, aGet_cons, if_neg (fun hh => hne hh.symm)]
  rfl

theorem openLoop_spec :
    ∀ (rest : Files) (disk : Files) (rds : Readers) (idx : Index) (unc : Nat)
      (hist : List Command) (css : List (List Command)),
      (∀ p ∈ rest, aGet disk p.1 = some p.2) →
      FilesWf rest css →
      indexMatches disk idx hist →
      (idx.map (fun p => p.1)).Nodup →
      (∀ p ∈ rest, aGet rds p.1 = none) →
      (rest.map (fun p => p.1)).Nodup →
      ∃ rds2 idx2 unc2,
        openLoop (rest.map (fun p => p.1)) disk rds idx unc = .ok (rds2, idx2, unc2) ∧
        indexMatches disk idx2 (hist ++ css.flatten) ∧
        (idx2.map (fun p => p.1)).Nodup ∧
        rds2.map (fun p => p.1) = rds.map (fun p => p.1) ++ rest.map (fun p => p.1) := by
  intro rest
  induction rest with
  | nil =>
    intro disk rds idx unc hist css hdisk hwf hm hnd hfresh hrnd
    cases hwf
    refine ⟨rds, idx, unc, rfl, ?_, hnd, by simp⟩
    simp only [List.flatten_nil, List.append_nil]
    exact hm
  | cons p rest ih =>
    obtain ⟨id, content⟩ := p
    intro disk rds idx unc hist css hdisk hwf hm hnd hfresh hrnd
    cases hwf with
    | cons hpc hwf2 =>
      rename_i cs css2
      simp only at hpc
      have hdiskid : aGet disk id = some content := hdisk _ (List.mem_cons_self _ _)
      obtain ⟨unc2, idx2, hload, hm2, hnd2⟩ :=
        loadRecords_spec cs ((encodeList cs).length + 1) disk id [] idx 0 hist
          (by rw [List.nil_append, ← hpc]; exact hdiskid)
          (by omega) hm hnd
      simp only [List.map_cons, openLoop, hdiskid]
      rw [hpc]
      rw [show (([] : List Char)).length = 0 from rfl] at hload
      simp only [hload]
      simp only [List.map_cons, List.nodup_cons] at hrnd
      obtain ⟨rds3, idx3, unc3, hloop, hm3, hnd3, hkeys⟩ :=
        ih disk (aPut rds id (encodeList cs).length) idx2 (unc + unc2) (hist ++ cs) css2
          (fun q hq => hdisk q (List.mem_cons_of_mem _ hq)) hwf2 hm2 hnd2
          (fun q hq => by
            rw [aPut_fresh _ (hfresh _ (List.mem_cons_self _ _))]
            exact aGet_append_one_none id (encodeList cs).length
              (hfresh q (List.mem_cons_of_mem _ hq))
              (fun hh => hrnd.1 (hh ▸ List.mem_map.mpr ⟨q, hq, rfl⟩)))
          hrnd.2
      refine ⟨rds3, idx3, unc3, hloop, ?_, hnd3, ?_⟩
      · rw [List.flatten_cons, ← List.append_assoc]
        exact hm3
      · rw [hkeys, aPut_fresh _ (hfresh _ (List.mem_cons_self _ _))]
        simp

theorem openStore_spec (s : Store) (h : Inv s) :
    ∃ s2, openStore s.files = .ok s2 ∧ Inv s2 ∧
      ∀ k, (get s2 k).1 = (get s k).1 := by
  obtain ⟨css, hfw, hmm⟩ := h.wf
  obtain ⟨fs0, c, hfiles, hoff⟩ := h.writerLast
  have hA : ∀ p ∈ s.files, p.1 ≤ s.writer.id := h.idsLe
  have hnodids : (s.files.map (fun p => p.1)).Nodup :=
    List.Pairwise.imp (fun hlt => Nat.ne_of_lt hlt) h.ascIds
  have hsorted : List.Sorted (· ≤ ·) (s.files.map (fun p => p.1)) :=
    h.ascIds.imp (fun hlt => Nat.le_of_lt hlt)
  obtain ⟨rds2, idx2, unc2, hloop, hm2, hnd2, hkeys⟩ :=
    openLoop_spec s.files s.files [] [] 0 [] css
      (fun p hp => aGet_of_mem_nodup hnodids hp) hfw
      (indexMatches_nil s.files) (by simp)
      (fun p hp => rfl) hnodids
  have hids : List.insertionSort (· ≤ ·) (s.files.map (fun p => p.1)) =
      s.files.map (fun p => p.1) := hsorted.insertionSort_eq
  have hlast : (s.files.map (fun p => p.1)).getLast? = some s.writer.id := by
    rw [hfiles]
    simp
  have hwid : (s.files.map (fun p => p.1)).getLast?.getD 0 + 1 = s.writer.id + 1 := by
    rw [hlast]
    rfl
  have hwidfresh : aGet s.files (s.writer.id + 1) = none := by
    cases hget : aGet s.files (s.writer.id + 1) with
    | none => rfl
    | some c2 =>
      have := hA _ (aGet_mem_of_eq_some hget)
      omega
  have hrfresh : aGet rds2 (s.writer.id + 1) = none := by
    cases hget : aGet rds2 (s.writer.id + 1) with
    | none => rfl
    | some c2 =>
      have hmem : s.writer.id + 1 ∈ rds2.map (fun p => p.1) :=
        (aGet_isSome_iff_mem _ _).mp (by rw [hget]; rfl)
      rw [hkeys] at hmem
      simp only [List.map_nil, List.nil_append] at hmem
      obtain ⟨p, hp, hpid⟩ := List.mem_map.mp hmem
      have := hA p hp
      omega
  have hkeys2 : rds2.map (fun p => p.1) = s.files.map (fun p => p.1) := by
    rw [hkeys]
    simp
  refine ⟨{ writer := ⟨s.writer.id + 1, 0⟩
            readers := aPut rds2 (s.writer.id + 1) 0
            files := wCreate s.files (s.writer.id + 1)
            index := idx2
            uncompacted := unc2 }, ?_, ?_, ?_⟩
  · rw [openStore]
    simp only [hids, hloop, hwid]
  · constructor
    case writerLast =>
      refine ⟨s.files, [], ?_, rfl⟩
      simp only []
      rw [wCreate_fresh hwidfresh]
    case ascIds =>
      simp only []
      rw [wCreate_fresh hwidfresh]
      simp only [List.map_append, List.map_cons, List.map_nil]
      rw [List.pairwise_append]
      refine ⟨h.ascIds, by simp, ?_⟩
      intro a ha b hb
      simp only [List.mem_singleton] at hb
      subst hb
      obtain ⟨p, hp, hpid⟩ := List.mem_map.mp ha
      have := hA p hp
      omega
    case idsLe =>
      intro p hp
      simp only [] at hp ⊢
      rw [wCreate_fresh hwidfresh] at hp
      rcases List.mem_append.mp hp with hp2 | hp2
      · have := hA p hp2
        omega
      · simp only [List.mem_singleton] at hp2
        subst hp2
        simp
    case sync =>
      intro id
      simp only []
      rw [wCreate_fresh hwidfresh, aPut_fresh _ hrfresh]
      rw [aGet_isSome_iff_mem, aGet_isSome_iff_mem]
      simp only [List.map_append, List.map_cons, List.map_nil, hkeys2]
    case rNodup =>
      simp only []
      rw [aPut_fresh _ hrfresh]
      simp only [List.map_append, List.map_cons, List.map_nil, hkeys2]
      rw [List.nodup_append]
      refine ⟨hnodids, by simp, ?_⟩
      intro a ha hb
      simp only [List.mem_singleton] at hb
      subst hb
      obtain ⟨p, hp, hpid⟩ := List.mem_map.mp ha
      have := hA p hp
      omega
    case kNodup =>
      simp only []
      exact hnd2
    case wf =>
      refine ⟨css ++ [[]], ?_, ?_⟩
      · simp only []
        rw [wCreate_fresh hwidfresh]
        refine List.rel_append hfw ?_
        refine List.Forall₂.cons rfl List.Forall₂.nil
      · simp only [List.flatten_append, List.flatten_cons, List.flatten_nil,
          List.append_nil]
        simp only [List.nil_append] at hm2
        refine indexMatches_extend ?_ hm2
        intro id c2 hc2
        rw [wCreate_fresh hwidfresh]
        exact aGet_append_left _ hc2
  · intro k
    have hm2b : indexMatches s.files idx2 css.flatten := by
      simpa using hm2
    have hsync2 : ∀ id,
        (aGet (aPut rds2 (s.writer.id + 1) 0) id).isSome ↔
        (aGet (wCreate s.files (s.writer.id + 1)) id).isSome := by
      intro id
      rw [wCreate_fresh hwidfresh, aPut_fresh _ hrfresh]
      rw [aGet_isSome_iff_mem, aGet_isSome_iff_mem]
      simp only [List.map_append, List.map_cons, List.map_nil, hkeys2]
    have hmatches2 : indexMatches (wCreate s.files (s.writer.id + 1)) idx2
        css.flatten := by
      refine indexMatches_extend ?_ hm2b
      intro id c2 hc2
      rw [wCreate_fresh hwidfresh]
      exact aGet_append_left _ hc2
    have hg2 := get_eq_of_matches
      { writer := ⟨s.writer.id + 1, 0⟩
        readers := aPut rds2 (s.writer.id + 1) 0
        files := wCreate s.files (s.writer.id + 1)
        index := idx2
        uncompacted := unc2 } css.flatten hsync2 hmatches2 k
    have hg1 := get_eq_of_matches s css.flatten h.sync hmm k
    rw [hg1, hg2]

/-! ## set and remove preserve the invariant -/

theorem filesWf_snoc {fs0 : Files} {p : Nat × List Char} {css : List (List Command)}
    (h : FilesWf (fs0 ++ [p]) css) :
    ∃ css0 cs, css = css0 ++ [cs] ∧ FilesWf fs0 css0 ∧ p.2 = encodeList cs := by
  induction fs0 generalizing css with
  | nil =>
    cases h with
    | cons hpc hnil =>
      cases hnil
      rename_i cs
      exact ⟨[], cs, rfl, List.Forall₂.nil, hpc⟩
  | cons q fs0 ih =>
    cases h with
    | cons hqc htail =>
      rename_i cs0 css'
      obtain ⟨css0, cs, hcss, hwf0, hpc⟩ := ih htail
      exact ⟨cs0 :: css0, cs, by rw [hcss]; rfl, List.Forall₂.cons hqc hwf0, hpc⟩

theorem aGet_snoc_ne {ν : Type} (fs0 : List (Nat × ν)) (A : Nat) (x : ν) {id : Nat}
    (hne : id ≠ A) : aGet (fs0 ++ [(A, x)]) id = aGet fs0 id := by
  cases hget : aGet fs0 id with
  | some y => exact aGet_append_left _ hget
  | none =>
    rw [aGet_append_right _ hget, aGet_cons, if_neg (fun hh => hne hh.symm)]
    rfl

theorem aGet_snoc_self {ν : Type} {fs0 : List (Nat × ν)} (A : Nat) (x : ν)
    (h : aGet fs0 A = none) : aGet (fs0 ++ [(A, x)]) A = some x := by
  rw [aGet_append_right _ h, aGet_cons, if_pos rfl]

theorem indexMatches_append_active {fs0 : Files} {A : Nat} {c : List Char}
    {idx : Index} {hist : List Command} (enc : List Char)
    (hm : indexMatches (fs0 ++ [(A, c)]) idx hist) (hfs0A : aGet fs0 A = none) :
    indexMatches (fs0 ++ [(A, c ++ enc)]) idx hist := by
  intro k
  refine ⟨?_, (hm k).2⟩
  intro vi h
  obtain ⟨v, ⟨content, hc, hb, hsl⟩, hlog⟩ := (hm k).1 vi h
  by_cases hid : vi.file_id = A
  · rw [hid, aGet_snoc_self A c hfs0A] at hc
    injection hc with hc
    subst hc
    refine ⟨v, ⟨c ++ enc, by rw [hid]; exact aGet_snoc_self A _ hfs0A, ?_, ?_⟩, hlog⟩
    · rw [List.length_append]
      omega
    · rw [slice_append_left enc hb]
      exact hsl
  · rw [aGet_snoc_ne fs0 A c hid] at hc
    exact ⟨v, ⟨content, by rw [aGet_snoc_ne fs0 A _ hid]; exact hc, hb, hsl⟩, hlog⟩

theorem flatten_snoc_cs (css0 : List (List Command)) (cs : List Command) :
    (css0 ++ [cs]).flatten = css0.flatten ++ cs := by
  rw [List.flatten_append, List.flatten_cons, List.flatten_nil, List.append_nil]

theorem encodeList_snoc (cs : List Command) (c : Command) :
    encodeList (cs ++ [c]) = encodeList cs ++ encodeCmd c := by
  rw [encodeList_append, encodeList_cons, encodeList_nil, List.append_nil]

/-- Appending one record to the active segment: the shape of the new
file list, the new invariant witness and the new index facts shared by
set and remove. -/
theorem setPre_master (s : Store) (h : Inv s) (k v : List Char) :
    Inv (setPre s k v) ∧
      ∀ k2, (get (setPre s k v) k2).1 =
        if k2 = k then .ok (some v) else (get s k2).1 := by
  obtain ⟨css, hfw, hmm⟩ := h.wf
  obtain ⟨fs0, c, hfiles, hoff⟩ := h.writerLast
  have hpw : List.Pairwise (· < ·) ((fs0 ++ [(s.writer.id, c)]).map (fun p => p.1)) := by
    rw [← hfiles]; exact h.ascIds
  rw [List.map_append, List.pairwise_append] at hpw
  have hfs0A : aGet fs0 s.writer.id = none := by
    cases hget : aGet fs0 s.writer.id with
    | none => rfl
    | some y =>
      have hmem : s.writer.id ∈ fs0.map (fun p => p.1) :=
        List.mem_map.mpr ⟨_, aGet_mem_of_eq_some hget, rfl⟩
      have := hpw.2.2 _ hmem s.writer.id (by simp)
      omega
  obtain ⟨css0, cs, hcss, hwf0, hpc⟩ := filesWf_snoc (hfiles ▸ hfw)
  simp only at hpc
  have hfilesnew : (setPre s k v).files =
      fs0 ++ [(s.writer.id, c ++ encodeCmd ⟨k, some v⟩)] := by
    simp only [setPre]
    rw [hfiles, fAppend_last _ hfs0A]
  have hkeysnew : (setPre s k v).files.map (fun p => p.1) =
      s.files.map (fun p => p.1) := by
    rw [hfilesnew, hfiles]
    simp
  have hmact : indexMatches (fs0 ++ [(s.writer.id, c ++ encodeCmd ⟨k, some v⟩)])
      s.index css.flatten :=
    indexMatches_append_active _ (hfiles ▸ hmm) hfs0A
  have hep : entryPoints (fs0 ++ [(s.writer.id, c ++ encodeCmd ⟨k, some v⟩)]) k
      ⟨s.writer.id, s.writer.offset, (encodeCmd ⟨k, some v⟩).length⟩ v := by
    refine ⟨c ++ encodeCmd ⟨k, some v⟩, aGet_snoc_self _ _ hfs0A, ?_, ?_⟩
    · simp only [hoff, List.length_append]
      omega
    · simp only [hoff]
      have := slice_at c (encodeCmd ⟨k, some v⟩) []
      rw [List.append_nil] at this
      exact this
  have hmput : indexMatches (fs0 ++ [(s.writer.id, c ++ encodeCmd ⟨k, some v⟩)])
      (kPut s.index k ⟨s.writer.id, s.writer.offset, (encodeCmd ⟨k, some v⟩).length⟩)
      (css.flatten ++ [⟨k, some v⟩]) := indexMatches_put hmact hep
  have hInv : Inv (setPre s k v) := by
    constructor
    case writerLast =>
      refine ⟨fs0, c ++ encodeCmd ⟨k, some v⟩, ?_, ?_⟩
      · simp only [setPre]
        rw [hfiles, fAppend_last _ hfs0A]
      · simp only [setPre, hoff, List.length_append]
    case ascIds =>
      rw [hkeysnew]
      exact h.ascIds
    case idsLe =>
      intro p hp
      rw [hfilesnew] at hp
      simp only [setPre]
      rcases List.mem_append.mp hp with hp2 | hp2
      · have := h.idsLe p (by rw [hfiles]; exact List.mem_append.mpr (Or.inl hp2))
        simpa using this
      · simp only [List.mem_singleton] at hp2
        subst hp2
        simp
    case sync =>
      intro id
      simp only [setPre]
      rw [aGet_isSome_iff_mem, aGet_isSome_iff_mem]
      have := h.sync id
      rw [aGet_isSome_iff_mem, aGet_isSome_iff_mem] at this
      rw [show (fAppend s.files s.writer.id (encodeCmd ⟨k, some v⟩)).map (fun p => p.1) =
        s.files.map (fun p => p.1) from by
          have h2 := hfilesnew
          simp only [setPre] at h2
          rw [h2, hfiles]; simp]
      exact this
    case rNodup => exact h.rNodup
    case kNodup =>
      simp only [setPre]
      exact kPut_keys_nodup _ h.kNodup
    case wf =>
      refine ⟨css0 ++ [cs ++ [⟨k, some v⟩]], ?_, ?_⟩
      · rw [hfilesnew]
        refine List.rel_append hwf0 ?_
        refine List.Forall₂.cons ?_ List.Forall₂.nil
        simp only [hpc, encodeList_snoc]
      · rw [flatten_snoc_cs]
        have hcssfl : css.flatten = css0.flatten ++ cs := by
          rw [hcss, flatten_snoc_cs]
        simp only [setPre]
        have h2 := hfilesnew
        simp only [setPre] at h2
        rw [h2, ← List.append_assoc, ← hcssfl]
        exact hmput
  refine ⟨hInv, ?_⟩
  intro k2
  have hcssfl : css.flatten = css0.flatten ++ cs := by
    rw [hcss, flatten_snoc_cs]
  have hg1 := get_eq_of_matches s css.flatten h.sync hmm k2
  have hg2 := get_eq_of_matches (setPre s k v) (css.flatten ++ [⟨k, some v⟩])
    hInv.sync (by
      simp only [setPre]
      have h2 := hfilesnew
      simp only [setPre] at h2
      rw [h2]
      exact hmput) k2
  rw [hg1, hg2, logGet_concat]
  by_cases hk : k2 = k
  · subst hk
    rw [if_pos rfl, if_pos rfl]
  · rw [if_neg (fun hh => hk hh.symm), if_neg hk]

theorem removePre_master (s : Store) (h : Inv s) (k : List Char) (prevSize : Nat) :
    Inv (removePre s k prevSize) ∧
      ∀ k2, (get (removePre s k prevSize) k2).1 =
        if k2 = k then .ok none else (get s k2).1 := by
  obtain ⟨css, hfw, hmm⟩ := h.wf
  obtain ⟨fs0, c, hfiles, hoff⟩ := h.writerLast
  have hpw : List.Pairwise (· < ·) ((fs0 ++ [(s.writer.id, c)]).map (fun p => p.1)) := by
    rw [← hfiles]; exact h.ascIds
  rw [List.map_append, List.pairwise_append] at hpw
  have hfs0A : aGet fs0 s.writer.id = none := by
    cases hget : aGet fs0 s.writer.id with
    | none => rfl
    | some y =>
      have hmem : s.writer.id ∈ fs0.map (fun p => p.1) :=
        List.mem_map.mpr ⟨_, aGet_mem_of_eq_some hget, rfl⟩
      have := hpw.2.2 _ hmem s.writer.id (by simp)
      omega
  obtain ⟨css0, cs, hcss, hwf0, hpc⟩ := filesWf_snoc (hfiles ▸ hfw)
  simp only at hpc
  have hfilesnew : (removePre s k prevSize).files =
      fs0 ++ [(s.writer.id, c ++ encodeCmd ⟨k, none⟩)] := by
    simp only [removePre]
    rw [hfiles, fAppend_last _ hfs0A]
  have hmact : indexMatches (fs0 ++ [(s.writer.id, c ++ encodeCmd ⟨k, none⟩)])
      s.index css.flatten :=
    indexMatches_append_active _ (hfiles ▸ hmm) hfs0A
  have hmdel : indexMatches (fs0 ++ [(s.writer.id, c ++ encodeCmd ⟨k, none⟩)])
      (kDel s.index k) (css.flatten ++ [⟨k, none⟩]) := indexMatches_del hmact
  have hInv : Inv (removePre s k prevSize) := by
    constructor
    case writerLast =>
      refine ⟨fs0, c ++ encodeCmd ⟨k, none⟩, ?_, ?_⟩
      · simp only [removePre]
        rw [hfiles, fAppend_last _ hfs0A]
      · simp only [removePre, hoff, List.length_append]
    case ascIds =>
      rw [show (removePre s k prevSize).files.map (fun p => p.1) =
          s.files.map (fun p => p.1) from by rw [hfilesnew, hfiles]; simp]
      exact h.ascIds
    case idsLe =>
      intro p hp
      rw [hfilesnew] at hp
      simp only [removePre]
      rcases List.mem_append.mp hp with hp2 | hp2
      · have := h.idsLe p (by rw [hfiles]; exact List.mem_append.mpr (Or.inl hp2))
        simpa using this
      · simp only [List.mem_singleton] at hp2
        subst hp2
        simp
    case sync =>
      intro id
      simp only [removePre]
      rw [aGet_isSome_iff_mem, aGet_isSome_iff_mem]
      have := h.sync id
      rw [aGet_isSome_iff_mem, aGet_isSome_iff_mem] at this
      rw [show (fAppend s.files s.writer.id (encodeCmd ⟨k, none⟩)).map (fun p => p.1) =
        s.files.map (fun p => p.1) from by
          have h2 := hfilesnew
          simp only [removePre] at h2
          rw [h2, hfiles]; simp]
      exact this
    case rNodup => exact h.rNodup
    case kNodup =>
      simp only [removePre]
      exact kDel_keys_nodup _ h.kNodup
    case wf =>
      refine ⟨css0 ++ [cs ++ [⟨k, none⟩]], ?_, ?_⟩
      · rw [hfilesnew]
        refine List.rel_append hwf0 ?_
        refine List.Forall₂.cons ?_ List.Forall₂.nil
        simp only [hpc, encodeList_snoc]
      · rw [flatten_snoc_cs]
        have hcssfl : css.flatten = css0.flatten ++ cs := by
          rw [hcss, flatten_snoc_cs]
        simp only [removePre]
        have h2 := hfilesnew
        simp only [removePre] at h2
        rw [h2, ← List.append_assoc, ← hcssfl]
        exact hmdel
  refine ⟨hInv, ?_⟩
  intro k2
  have hg1 := get_eq_of_matches s css.flatten h.sync hmm k2
  have hg2 := get_eq_of_matches (removePre s k prevSize) (css.flatten ++ [⟨k, none⟩])
    hInv.sync (by
      simp only [removePre]
      have h2 := hfilesnew
      simp only [removePre] at h2
      rw [h2]
      exact hmdel) k2
  rw [hg1, hg2, logGet_concat]
  by_cases hk : k2 = k
  · subst hk
    rw [if_pos rfl, if_pos rfl]
  · rw [if_neg (fun hh => hk hh.symm), if_neg hk]

/-! ## Compaction -/

theorem kGet_none_of_not_mem {ν : Type} {m : List (List Char × ν)} {k : List Char}
    (h : k ∉ m.map (fun p => p.1)) : kGet m k = none := by
  cases hget : kGet m k with
  | none => rfl
  | some v => exact absurd (kGet_isSome_mem (by rw [hget]; rfl)) h

theorem aMod_congr {ν : Type} (m : List (Nat × ν)) (id : Nat) {f g : ν → ν}
    (hfg : ∀ x, f x = g x) : aMod m id f = aMod m id g := by
  simp only [aMod]
  apply List.map_congr_left
  intro p hp
  by_cases h : p.1 = id <;> simp [h, hfg]

theorem rmLoop_spec :
    ∀ (ids : List Nat) (rds : Readers) (fls : Files),
      ids.Nodup →
      (∀ id ∈ ids, (aGet fls id).isSome) →
      rmLoop ids rds fls =
        (.ok (), rds.filter (fun p => decide ¬ p.1 ∈ ids),
          fls.filter (fun p => decide ¬ p.1 ∈ ids)) := by
  intro ids
  induction ids with
  | nil =>
    intro rds fls hnd hpr
    simp only [rmLoop]
    rw [List.filter_eq_self.mpr (by intro a ha; simp),
      List.filter_eq_self.mpr (by intro a ha; simp)]
  | cons id ids ih =>
    intro rds fls hnd hpr
    have hid : (aGet fls id).isSome := hpr id (List.mem_cons_self _ _)
    cases hget : aGet fls id with
    | none => rw [hget] at hid; simp at hid
    | some content =>
      simp only [rmLoop, hget]
      simp only [List.nodup_cons] at hnd
      rw [ih (aDel rds id) (fRemove fls id) hnd.2 (by
        intro id2 hid2
        rw [aGet_fRemove]
        rw [if_neg (by intro hh; exact hnd.1 (hh ▸ hid2))]
        exact hpr id2 (List.mem_cons_of_mem _ hid2))]
      rw [aDel_eq_filter, fRemove_eq_filter, List.filter_filter, List.filter_filter]
      have hpred : ∀ (a : Nat × Nat),
          (decide ¬ a.1 ∈ ids && decide ¬ a.1 = id) = decide ¬ a.1 ∈ id :: ids := by
        intro a
        simp [List.mem_cons, not_or, Bool.and_comm]
      have hpredf : ∀ (a : Nat × List Char),
          (decide ¬ a.1 ∈ ids && decide ¬ a.1 = id) = decide ¬ a.1 ∈ id :: ids := by
        intro a
        simp [List.mem_cons, not_or, Bool.and_comm]
      rw [List.filter_congr (fun a _ => hpred a), List.filter_congr (fun a _ => hpredf a)]

theorem kGet_mem_of_eq_some {ν : Type} {m : List (List Char × ν)} {k : List Char} {v : ν}
    (h : kGet m k = some v) : (k, v) ∈ m := by
  induction m with
  | nil => simp [kGet] at h
  | cons p m ih =>
    obtain ⟨i, x⟩ := p
    rw [kGet_cons] at h
    split at h
    · rename_i hp
      injection h with hv
      rw [← hp, ← hv]
      exact List.mem_cons_self _ _
    · exact List.mem_cons_of_mem _ (ih h)

theorem compactLoop_spec :
    ∀ (es : Index) (fls : Files) (rds : Readers) (coff : Nat) (cid nid : Nat)
      (cc : List Char),
      aGet fls cid = some cc →
      coff = cc.length →
      (∀ kv ∈ es, kv.2.file_id ≠ cid ∧ kv.2.file_id ≠ nid ∧
        (aGet rds kv.2.file_id).isSome ∧
        ∃ content v, aGet fls kv.2.file_id = some content ∧
          kv.2.file_offset + kv.2.size ≤ content.length ∧
          (content.drop kv.2.file_offset).take kv.2.size = encodeCmd ⟨kv.1, some v⟩) →
      ∃ es2 added fls2 rds2,
        compactLoop cid nid es fls rds coff =
          (.ok (), (es2, fls2, rds2, coff + (encodeList added).length)) ∧
        fls2 = aMod fls cid (fun x => x ++ encodeList added) ∧
        rds2.map (fun p => p.1) = rds.map (fun p => p.1) ∧
        es2.map (fun p => p.1) = es.map (fun p => p.1) ∧
        added.map (fun cmd => cmd.key) = es.map (fun p => p.1) ∧
        (∀ k vi2, kGet es2 k = some vi2 → vi2.file_id = cid) ∧
        (∀ k vi, kGet es k = some vi → ∃ vi2 v, kGet es2 k = some vi2 ∧
          vi2.file_id = cid ∧ vi2.size = vi.size ∧
          (⟨k, some v⟩ : Command) ∈ added ∧
          entryPoints fls2 k vi2 v ∧
          (∃ content, aGet fls vi.file_id = some content ∧
            (content.drop vi.file_offset).take vi.size = encodeCmd ⟨k, some v⟩)) := by
  intro es
  induction es with
  | nil =>
    intro fls rds coff cid nid cc hcc hcoff hes
    refine ⟨[], [], fls, rds, ?_, ?_, rfl, rfl, rfl, ?_, ?_⟩
    · simp only [compactLoop, encodeList_nil, List.length_nil, Nat.add_zero]
    · rw [@aMod_congr _ fls cid _ (fun x => x) (by intro x; simp [encodeList_nil])]
      exact (aMod_congr_id fls cid (fun x => rfl)).symm
    · intro k vi2 h
      simp [kGet] at h
    · intro k vi h
      simp [kGet] at h
  | cons kv rest ih =>
    obtain ⟨k0, vi0⟩ := kv
    intro fls rds coff cid nid cc hcc hcoff hes
    obtain ⟨hne_cid, hne_nid, hrd, content0, v0, hcontent0, hbound0, hslice0⟩ :=
      hes _ (List.mem_cons_self _ _)
    dsimp only at hne_cid hne_nid hrd hcontent0 hbound0 hslice0
    cases hrdv : aGet rds vi0.file_id with
    | none => rw [hrdv] at hrd; simp at hrd
    | some pos =>
      have hbyteseq : ((((aGet fls vi0.file_id).getD []).drop vi0.file_offset).take vi0.size)
          = encodeCmd ⟨k0, some v0⟩ := by
        rw [hcontent0]
        exact hslice0
      have hbyteslen : ((((aGet fls vi0.file_id).getD []).drop vi0.file_offset).take vi0.size).length
          = vi0.size := by
        rw [hcontent0]
        simp only [Option.getD_some, List.length_take, List.length_drop]
        omega
      have henc : (encodeCmd ⟨k0, some v0⟩).length = vi0.size := by
        rw [← hbyteseq]
        exact hbyteslen
      have hfls1 : fAppend fls cid
          ((((aGet fls vi0.file_id).getD []).drop vi0.file_offset).take vi0.size) =
          aMod fls cid (fun x => x ++ encodeCmd ⟨k0, some v0⟩) := by
        rw [fAppend_present _ (by rw [hcc]; rfl)]
        rw [hbyteseq]
      have hcc1 : aGet (aMod fls cid (fun x => x ++ encodeCmd ⟨k0, some v0⟩)) cid =
          some (cc ++ encodeCmd ⟨k0, some v0⟩) := by
        rw [aGet_aMod_self, hcc]
        rfl
      have hrest : ∀ kv ∈ rest, kv.2.file_id ≠ cid ∧ kv.2.file_id ≠ nid ∧
          (aGet (rSeek rds vi0.file_id (vi0.file_offset +
            ((((aGet fls vi0.file_id).getD []).drop vi0.file_offset).take vi0.size).length)) kv.2.file_id).isSome ∧
          ∃ content v, aGet (aMod fls cid (fun x => x ++ encodeCmd ⟨k0, some v0⟩)) kv.2.file_id = some content ∧
            kv.2.file_offset + kv.2.size ≤ content.length ∧
            (content.drop kv.2.file_offset).take kv.2.size = encodeCmd ⟨kv.1, some v⟩ := by
        intro kv hkv
        obtain ⟨h1, h2, h3, content, v, hc, hb, hsl⟩ := hes _ (List.mem_cons_of_mem _ hkv)
        refine ⟨h1, h2, ?_, content, v, ?_, hb, hsl⟩
        · rw [aGet_isSome_iff_mem, rSeek, aMod_keys, ← aGet_isSome_iff_mem]
          exact h3
        · rw [aGet_aMod_ne _ _ h1]
          exact hc
      obtain ⟨es2, added, fls2, rds2, heq, hfls2, hrds2, hes2keys, haddedkeys, hcidonly, hcorr⟩ :=
        ih (aMod fls cid (fun x => x ++ encodeCmd ⟨k0, some v0⟩))
          (rSeek rds vi0.file_id (vi0.file_offset +
            ((((aGet fls vi0.file_id).getD []).drop vi0.file_offset).take vi0.size).length))
          (coff + ((((aGet fls vi0.file_id).getD []).drop vi0.file_offset).take vi0.size).length)
          cid nid (cc ++ encodeCmd ⟨k0, some v0⟩) hcc1
          (by rw [hcoff, hbyteslen, List.length_append, henc]) hrest
      have hfls2' : fls2 = aMod fls cid (fun x => x ++ encodeList (⟨k0, some v0⟩ :: added)) := by
        rw [hfls2, aMod_aMod]
        apply aMod_congr
        intro x
        rw [encodeList_cons, List.append_assoc]
      have hccfinal : aGet fls2 cid = some (cc ++ encodeList (⟨k0, some v0⟩ :: added)) := by
        rw [hfls2', aGet_aMod_self, hcc]
        rfl
      refine ⟨(k0, ⟨cid, coff, ((((aGet fls vi0.file_id).getD []).drop vi0.file_offset).take vi0.size).length⟩) :: es2,
        ⟨k0, some v0⟩ :: added, fls2, rds2, ?_, hfls2', ?_, ?_, ?_, ?_, ?_⟩
      · simp only [compactLoop, if_neg hne_cid, if_neg hne_nid, hrdv]
        rw [show fAppend fls cid
            ((((aGet fls vi0.file_id).getD []).drop vi0.file_offset).take vi0.size) =
            aMod fls cid (fun x => x ++ encodeCmd ⟨k0, some v0⟩) from hfls1]
        rw [heq]
        have hlen : coff + ((((aGet fls vi0.file_id).getD []).drop vi0.file_offset).take vi0.size).length +
            (encodeList added).length =
            coff + (encodeList (⟨k0, some v0⟩ :: added)).length := by
          rw [hbyteslen, encodeList_cons, List.length_append, henc]
          omega
        rw [hlen]
      · rw [hrds2, rSeek, aMod_keys]
      · simp only [List.map_cons, hes2keys]
      · simp only [List.map_cons, haddedkeys]
      · intro k vi2 h
        rw [kGet_cons] at h
        split at h
        · injection h with h
          rw [← h]
        · exact hcidonly _ _ h
      · intro k vi h
        rw [kGet_cons] at h
        by_cases hk : k0 = k
        · rw [if_pos hk] at h
          injection h with h
          subst h
          subst hk
          refine ⟨⟨cid, coff, ((((aGet fls vi0.file_id).getD []).drop vi0.file_offset).take vi0.size).length⟩,
            v0, ?_, rfl, ?_, List.mem_cons_self _ _, ?_, ?_⟩
          · rw [kGet_cons, if_pos rfl]
          · exact hbyteslen
          · have hencsz : ((((aGet fls vi0.file_id).getD []).drop vi0.file_offset).take vi0.size).length
                = (encodeCmd ⟨k0, some v0⟩).length := by rw [hbyteseq]
            refine ⟨cc ++ encodeList (⟨k0, some v0⟩ :: added), hccfinal, ?_, ?_⟩
            · simp only [hcoff, hencsz, encodeList_cons, List.length_append]
              omega
            · simp only [hcoff, hencsz]
              rw [encodeList_cons]
              exact slice_at cc (encodeCmd ⟨k0, some v0⟩) (encodeList added)
          · exact ⟨content0, hcontent0, hslice0⟩
        · rw [if_neg hk] at h
          obtain ⟨vi2, v, hg2, hcid2, hsz2, hmem2, hep2, horig2⟩ := hcorr k vi h
          refine ⟨vi2, v, ?_, hcid2, hsz2, List.mem_cons_of_mem _ hmem2, hep2, ?_⟩
          · rw [kGet_cons, if_neg hk]
            exact hg2
          · obtain ⟨content, hc, hsl⟩ := horig2
            refine ⟨content, ?_, hsl⟩
            have h1 := (hes _ (List.mem_cons_of_mem _ (by
              exact (kGet_mem_of_eq_some h)))).1
            rw [aGet_aMod_ne _ _ h1] at hc
            exact hc

theorem map_fst_filter_key {ν : Type} (q : Nat → Bool) (l : List (Nat × ν)) :
    (l.filter (fun p => q p.1)).map (fun p => p.1) = (l.map (fun p => p.1)).filter q := by
  induction l with
  | nil => rfl
  | cons p l ih =>
    rw [List.filter_cons, List.map_cons, List.filter_cons]
    by_cases hq : q p.1
    · rw [if_pos hq, if_pos hq, List.map_cons, ih]
    · rw [if_neg hq, if_neg hq, ih]

theorem aMod_filter_key {ν : Type} (q : Nat → Bool) (l : List (Nat × ν)) (id : Nat)
    (f : ν → ν) :
    (aMod l id f).filter (fun p => q p.1) = aMod (l.filter (fun p => q p.1)) id f := by
  induction l with
  | nil => rfl
  | cons p l ih =>
    obtain ⟨i, x⟩ := p
    rw [aMod_cons, List.filter_cons]
    by_cases hi : i = id
    · rw [if_pos hi]
      by_cases hq : q i
      · rw [show (if q (i, f x).1 = true then ((i, f x) :: (aMod l id f).filter
            (fun p => q p.1)) else (aMod l id f).filter (fun p => q p.1)) =
            (i, f x) :: (aMod l id f).filter (fun p => q p.1) from by rw [if_pos (by simpa using hq)]]
        rw [List.filter_cons, if_pos (by simpa using hq), aMod_cons, if_pos hi, ih]
      · rw [show (if q (i, f x).1 = true then ((i, f x) :: (aMod l id f).filter
            (fun p => q p.1)) else (aMod l id f).filter (fun p => q p.1)) =
            (aMod l id f).filter (fun p => q p.1) from by rw [if_neg (by simpa using hq)]]
        rw [List.filter_cons, if_neg (by simpa using hq), ih]
    · rw [if_neg hi]
      by_cases hq : q i
      · rw [show (if q (i, x).1 = true then ((i, x) :: (aMod l id f).filter
            (fun p => q p.1)) else (aMod l id f).filter (fun p => q p.1)) =
            (i, x) :: (aMod l id f).filter (fun p => q p.1) from by rw [if_pos (by simpa using hq)]]
        rw [List.filter_cons, if_pos (by simpa using hq), aMod_cons, if_neg hi, ih]
      · rw [show (if q (i, x).1 = true then ((i, x) :: (aMod l id f).filter
            (fun p => q p.1)) else (aMod l id f).filter (fun p => q p.1)) =
            (aMod l id f).filter (fun p => q p.1) from by rw [if_neg (by simpa using hq)]]
        rw [List.filter_cons, if_neg (by simpa using hq), ih]

theorem compact_master (s : Store) (h : Inv s) :
    (compact s).1 = .ok () ∧ Inv (compact s).2 ∧
    (∀ k, (get (compact s).2 k).1 = (get s k).1) ∧
    (compact s).2.writer.id = s.writer.id + 2 ∧
    (compact s).2.uncompacted = 0 ∧
    (∀ id, id < s.writer.id + 1 →
      aGet (compact s).2.files id = none ∧ aGet (compact s).2.readers id = none) ∧
    (∀ k vi2, kGet (compact s).2.index k = some vi2 → s.writer.id + 1 ≤ vi2.file_id) ∧
    (∀ k vi, kGet s.index k = some vi →
      ∃ vi2, kGet (compact s).2.index k = some vi2 ∧ vi2.file_id = s.writer.id + 1 ∧
        vi2.size = vi.size ∧
        ∃ bytes content content2, aGet s.files vi.file_id = some content ∧
          (content.drop vi.file_offset).take vi.size = bytes ∧
          aGet (compact s).2.files vi2.file_id = some content2 ∧
          (content2.drop vi2.file_offset).take vi2.size = bytes) ∧
    (∀ k vi, kGet s.index k = some vi → vi.file_id = s.writer.id + 2 →
      kGet (compact s).2.index k = some vi) := by
  obtain ⟨css, hfw, hmm⟩ := h.wf
  have hcidfresh : aGet s.files (s.writer.id + 1) = none := by
    cases hget : aGet s.files (s.writer.id + 1) with
    | none => rfl
    | some y =>
      have := h.idsLe _ (aGet_mem_of_eq_some hget)
      omega
  have hnidfresh : aGet s.files (s.writer.id + 2) = none := by
    cases hget : aGet s.files (s.writer.id + 2) with
    | none => rfl
    | some y =>
      have := h.idsLe _ (aGet_mem_of_eq_some hget)
      omega
  have hrcid : aGet s.readers (s.writer.id + 1) = none := by
    cases hget : aGet s.readers (s.writer.id + 1) with
    | none => rfl
    | some y =>
      have hm := (h.sync (s.writer.id + 1)).mp (by rw [hget]; rfl)
      rw [hcidfresh] at hm
      simp at hm
  have hrnid : aGet s.readers (s.writer.id + 2) = none := by
    cases hget : aGet s.readers (s.writer.id + 2) with
    | none => rfl
    | some y =>
      have hm := (h.sync (s.writer.id + 2)).mp (by rw [hget]; rfl)
      rw [hnidfresh] at hm
      simp at hm
  have hfiles1 : wCreate s.files (s.writer.id + 1) = s.files ++ [(s.writer.id + 1, [])] :=
    wCreate_fresh hcidfresh
  have hf1nid : aGet (s.files ++ [(s.writer.id + 1, [])]) (s.writer.id + 2) = none :=
    aGet_append_one_none _ _ hnidfresh (by omega)
  have hfiles2 : wCreate (wCreate s.files (s.writer.id + 1)) (s.writer.id + 2) =
      (s.files ++ [(s.writer.id + 1, [])]) ++ [(s.writer.id + 2, [])] := by
    rw [hfiles1]
    exact wCreate_fresh hf1nid
  have hreaders1 : aPut s.readers (s.writer.id + 1) 0 = s.readers ++ [(s.writer.id + 1, 0)] :=
    aPut_fresh _ hrcid
  have hr1nid : aGet (s.readers ++ [(s.writer.id + 1, 0)]) (s.writer.id + 2) = none :=
    aGet_append_one_none _ _ hrnid (by omega)
  have hreaders2 : aPut (aPut s.readers (s.writer.id + 1) 0) (s.writer.id + 2) 0 =
      (s.readers ++ [(s.writer.id + 1, 0)]) ++ [(s.writer.id + 2, 0)] := by
    rw [hreaders1]
    exact aPut_fresh _ hr1nid
  have hfget2 : ∀ {id : Nat} {c : List Char}, aGet s.files id = some c →
      aGet (wCreate (wCreate s.files (s.writer.id + 1)) (s.writer.id + 2)) id = some c := by
    intro id c hc
    rw [hfiles2]
    exact aGet_append_left _ (aGet_append_left _ hc)
  have hrget2 : ∀ {id : Nat} {c : Nat}, aGet s.readers id = some c →
      aGet (aPut (aPut s.readers (s.writer.id + 1) 0) (s.writer.id + 2) 0) id = some c := by
    intro id c hc
    rw [hreaders2]
    exact aGet_append_left _ (aGet_append_left _ hc)
  have hcc : aGet (wCreate (wCreate s.files (s.writer.id + 1)) (s.writer.id + 2))
      (s.writer.id + 1) = some [] := by
    rw [hfiles2]
    exact aGet_append_left _ (aGet_snoc_self _ _ hcidfresh)
  have hIdLeOfSome : ∀ {id : Nat}, (aGet s.files id).isSome → id ≤ s.writer.id := by
    intro id hid
    cases hget : aGet s.files id with
    | none => rw [hget] at hid; simp at hid
    | some y => exact h.idsLe _ (aGet_mem_of_eq_some hget)
  have hes : ∀ kv ∈ s.index, kv.2.file_id ≠ s.writer.id + 1 ∧
      kv.2.file_id ≠ s.writer.id + 2 ∧
      (aGet (aPut (aPut s.readers (s.writer.id + 1) 0) (s.writer.id + 2) 0) kv.2.file_id).isSome ∧
      ∃ content v, aGet (wCreate (wCreate s.files (s.writer.id + 1)) (s.writer.id + 2))
          kv.2.file_id = some content ∧
        kv.2.file_offset + kv.2.size ≤ content.length ∧
        (content.drop kv.2.file_offset).take kv.2.size = encodeCmd ⟨kv.1, some v⟩ := by
    intro kv hkv
    have hkget : kGet s.index kv.1 = some kv.2 := kGet_of_mem_nodup h.kNodup hkv
    obtain ⟨v, ⟨content, hc, hb, hsl⟩, hlog⟩ := (hmm kv.1).1 kv.2 hkget
    have hle : kv.2.file_id ≤ s.writer.id := hIdLeOfSome (by rw [hc]; rfl)
    refine ⟨by omega, by omega, ?_, content, v, hfget2 hc, hb, hsl⟩
    have hrs : (aGet s.readers kv.2.file_id).isSome := (h.sync _).mpr (by rw [hc]; rfl)
    cases hrg : aGet s.readers kv.2.file_id with
    | none => rw [hrg] at hrs; simp at hrs
    | some y =>
      rw [hrget2 hrg]
      rfl
  obtain ⟨es2, added, fls2, rds2, heq, hfls2, hrds2, hes2keys, haddedkeys, hcidonly, hcorr⟩ :=
    compactLoop_spec s.index
      (wCreate (wCreate s.files (s.writer.id + 1)) (s.writer.id + 2))
      (aPut (aPut s.readers (s.writer.id + 1) 0) (s.writer.id + 2) 0) 0
      (s.writer.id + 1) (s.writer.id + 2) [] hcc rfl hes
  have hrds2keys : rds2.map (fun p => p.1) =
      s.readers.map (fun p => p.1) ++ [s.writer.id + 1, s.writer.id + 2] := by
    rw [hrds2, hreaders2]
    simp
  have hreadmemlt : ∀ id ∈ s.readers.map (fun p => p.1), id < s.writer.id + 1 := by
    intro id hid
    have hs : (aGet s.files id).isSome := by
      rw [← h.sync id, aGet_isSome_iff_mem]
      exact hid
    have := hIdLeOfSome hs
    omega
  have hrmids : (rds2.map (fun p => p.1)).filter
      (fun i => decide (i < s.writer.id + 1)) = s.readers.map (fun p => p.1) := by
    rw [hrds2keys, List.filter_append]
    rw [List.filter_eq_self.mpr (by
      intro a ha
      simp only [decide_eq_true_eq]
      exact hreadmemlt a ha)]
    rw [show ([s.writer.id + 1, s.writer.id + 2].filter
      (fun i => decide (i < s.writer.id + 1))) = [] from by
        simp only [List.filter_cons, List.filter_nil]
        rw [if_neg (by simp), if_neg (by simp)]]
    rw [List.append_nil]
  have hfls2id : ∀ {id : Nat}, id ≠ s.writer.id + 1 →
      aGet fls2 id = aGet (wCreate (wCreate s.files (s.writer.id + 1)) (s.writer.id + 2)) id := by
    intro id hid
    rw [hfls2]
    exact aGet_aMod_ne _ _ hid
  have hfls2cid : aGet fls2 (s.writer.id + 1) = some (encodeList added) := by
    rw [hfls2, aGet_aMod_self, hcc]
    rfl
  have hrmfiles : ∀ id ∈ s.readers.map (fun p => p.1), (aGet fls2 id).isSome := by
    intro id hid
    have hlt := hreadmemlt id hid
    rw [hfls2id (by omega)]
    have hs : (aGet s.files id).isSome := by
      rw [← h.sync id, aGet_isSome_iff_mem]
      exact hid
    cases hget : aGet s.files id with
    | none => rw [hget] at hs; simp at hs
    | some y =>
      rw [hfget2 hget]
      rfl
  have hrmloop : rmLoop ((rds2.map (fun p => p.1)).filter
      (fun i => decide (i < s.writer.id + 1))) rds2 fls2 =
      (.ok (), rds2.filter (fun p => decide (¬ p.1 ∈ (rds2.map (fun q => q.1)).filter
          (fun i => decide (i < s.writer.id + 1)))),
        fls2.filter (fun p => decide (¬ p.1 ∈ (rds2.map (fun q => q.1)).filter
          (fun i => decide (i < s.writer.id + 1))))) := by
    apply rmLoop_spec
    · rw [hrmids]
      exact h.rNodup
    · intro id hid
      rw [hrmids] at hid
      exact hrmfiles id hid
  have hmemfilesreaders : ∀ id : Nat, id ∈ s.files.map (fun p => p.1) ↔
      id ∈ s.readers.map (fun p => p.1) := by
    intro id
    rw [← aGet_isSome_iff_mem, ← aGet_isSome_iff_mem]
    exact (h.sync id).symm
  have hpredkeyf : ∀ (p : Nat × List Char),
      (decide (¬ p.1 ∈ (rds2.map (fun q => q.1)).filter
        (fun i => decide (i < s.writer.id + 1)))) =
      (decide (¬ p.1 ∈ s.readers.map (fun q => q.1))) := by
    intro p
    rw [hrmids]
  have hpredkeyr : ∀ (p : Nat × Nat),
      (decide (¬ p.1 ∈ (rds2.map (fun q => q.1)).filter
        (fun i => decide (i < s.writer.id + 1)))) =
      (decide (¬ p.1 ∈ s.readers.map (fun q => q.1))) := by
    intro p
    rw [hrmids]
  have hc1mem : ¬ (s.writer.id + 1) ∈ s.readers.map (fun q => q.1) := by
    intro hmem
    have := hreadmemlt _ hmem
    omega
  have hc2mem : ¬ (s.writer.id + 2) ∈ s.readers.map (fun q => q.1) := by
    intro hmem
    have := hreadmemlt _ hmem
    omega
  have hflsF : fls2.filter (fun p => decide (¬ p.1 ∈ (rds2.map (fun q => q.1)).filter
      (fun i => decide (i < s.writer.id + 1)))) =
      [(s.writer.id + 1, encodeList added), (s.writer.id + 2, [])] := by
    rw [List.filter_congr (fun p _ => hpredkeyf p)]
    rw [hfls2]
    rw [aMod_filter_key (fun i => decide (¬ i ∈ s.readers.map (fun q => q.1)))
      (wCreate (wCreate s.files (s.writer.id + 1)) (s.writer.id + 2))
      (s.writer.id + 1) (fun x => x ++ encodeList added)]
    rw [hfiles2]
    rw [List.filter_append, List.filter_append]
    rw [List.filter_eq_nil_iff.mpr (by
      intro p hp
      have hqmem : p.1 ∈ s.files.map (fun r => r.1) := List.mem_map.mpr ⟨p, hp, rfl⟩
      have hqr := (hmemfilesreaders p.1).mp hqmem
      simp only [decide_not, Bool.not_eq_true', decide_eq_false_iff_not, not_not]
      exact hqr)]
    rw [show ([(s.writer.id + 1, ([] : List Char))].filter
        (fun p => decide (¬ p.1 ∈ s.readers.map (fun q => q.1)))) =
        [(s.writer.id + 1, ([] : List Char))] from by
      rw [List.filter_cons, if_pos (by simpa using hc1mem), List.filter_nil]]
    rw [show ([(s.writer.id + 2, ([] : List Char))].filter
        (fun p => decide (¬ p.1 ∈ s.readers.map (fun q => q.1)))) =
        [(s.writer.id + 2, ([] : List Char))] from by
      rw [List.filter_cons, if_pos (by simpa using hc2mem), List.filter_nil]]
    rw [List.nil_append]
    have hne21 : ¬ (s.writer.id + 2 = s.writer.id + 1) := by omega
    simp [aMod, hne21]
  have hrdsFkeys : (rds2.filter (fun p => decide (¬ p.1 ∈ (rds2.map (fun q => q.1)).filter
      (fun i => decide (i < s.writer.id + 1))))).map (fun p => p.1) =
      [s.writer.id + 1, s.writer.id + 2] := by
    rw [List.filter_congr (fun p _ => hpredkeyr p)]
    rw [map_fst_filter_key (fun i => decide (¬ i ∈ s.readers.map (fun q => q.1))) rds2]
    rw [hrds2keys, List.filter_append]
    rw [List.filter_eq_nil_iff.mpr (by
      intro a ha
      simpa using ha)]
    rw [List.nil_append]
    simp only [List.filter_cons, List.filter_nil]
    rw [if_pos (by simpa using hc1mem), if_pos (by simpa using hc2mem)]
  have hcompact : compact s = (.ok (),
      ({ writer := ⟨s.writer.id + 2, 0⟩,
         readers := rds2.filter (fun p => decide (¬ p.1 ∈ (rds2.map (fun q => q.1)).filter
           (fun i => decide (i < s.writer.id + 1)))),
         files := [(s.writer.id + 1, encodeList added), (s.writer.id + 2, [])],
         index := es2,
         uncompacted := 0 } : Store)) := by
    simp only [compact, heq, hrmloop, hflsF]
  have haddednd : (added.map (fun c => c.key)).Nodup := by
    rw [haddedkeys]
    exact h.kNodup
  have hmatches : indexMatches
      [(s.writer.id + 1, encodeList added), (s.writer.id + 2, ([] : List Char))] es2 added := by
    intro k
    constructor
    · intro vi2 hvi2
      have hsome : k ∈ s.index.map (fun p => p.1) := by
        rw [← hes2keys]
        exact kGet_isSome_mem (by rw [hvi2]; rfl)
      cases hidx : kGet s.index k with
      | none => exact absurd hsome (kGet_none_not_mem hidx)
      | some vi =>
        obtain ⟨vi2t, v, hvi2t, hfid, hsz, hmemadded, ⟨c2, hc2g, hb2, hsl2⟩,
            content1, hcontent1, hslice1⟩ := hcorr k vi hidx
        rw [hvi2] at hvi2t
        injection hvi2t with hv2eq
        subst hv2eq
        have hc2eq : c2 = encodeList added := by
          rw [hfid, hfls2cid] at hc2g
          injection hc2g with hh
          exact hh.symm
        subst hc2eq
        refine ⟨v, ⟨encodeList added, ?_, hb2, hsl2⟩, ?_⟩
        · rw [hfid, aGet_cons, if_pos rfl]
        · exact logGet_mem_nodup haddednd hmemadded
    · intro hnone
      apply logGet_not_mem
      rw [haddedkeys, ← hes2keys]
      exact kGet_none_not_mem hnone
  have hsyncF : ∀ id, (aGet (rds2.filter (fun p => decide (¬ p.1 ∈ (rds2.map (fun q => q.1)).filter
        (fun i => decide (i < s.writer.id + 1))))) id).isSome ↔
      (aGet ([(s.writer.id + 1, encodeList added), (s.writer.id + 2, ([] : List Char))]) id).isSome := by
    intro id
    rw [aGet_isSome_iff_mem, aGet_isSome_iff_mem, hrdsFkeys]
    simp
  have hlogeq : ∀ k, logGet added k = logGet css.flatten k := by
    intro k
    cases hidx : kGet s.index k with
    | none =>
      rw [(hmm k).2 hidx]
      apply logGet_not_mem
      rw [haddedkeys, ← hes2keys]
      apply kGet_none_not_mem
      apply kGet_none_of_not_mem
      rw [hes2keys]
      exact kGet_none_not_mem hidx
    | some vi =>
      obtain ⟨vold, ⟨contentold, hcold, hbold, hslold⟩, hlogold⟩ := (hmm k).1 vi hidx
      obtain ⟨vi2, v, hvi2, hfid, hsz, hmemadded, hep, content1, hcontent1, hslice1⟩ :=
        hcorr k vi hidx
      have hco := hfget2 hcold
      rw [hcontent1] at hco
      injection hco with hceq
      rw [hceq] at hslice1
      have hvv : (⟨k, some v⟩ : Command) = ⟨k, some vold⟩ := by
        apply encodeCmd_inj
        rw [← hslice1]
        exact hslold
      have hvveq : v = vold := by
        injection hvv with hk2 hv2
        injection hv2
      rw [hlogold, logGet_mem_nodup haddednd hmemadded, hvveq]
  rw [hcompact]
  dsimp only
  refine ⟨rfl, ?_, ?_, rfl, rfl, ?_, ?_, ?_, ?_⟩
  · refine ⟨?_, ?_, ?_, ?_, ?_, ?_, ?_⟩
    · exact ⟨[(s.writer.id + 1, encodeList added)], [], rfl, rfl⟩
    · dsimp only
      simp only [List.map_cons, List.map_nil]
      refine List.Pairwise.cons ?_ (List.Pairwise.cons ?_ List.Pairwise.nil)
      · intro b hb
        simp only [List.mem_cons, List.not_mem_nil, or_false] at hb
        omega
      · intro b hb
        simp at hb
    · intro p hp
      dsimp only at hp ⊢
      simp only [List.mem_cons, List.not_mem_nil, or_false] at hp
      rcases hp with hp | hp <;> subst hp <;> dsimp only <;> omega
    · exact hsyncF
    · dsimp only
      rw [hrdsFkeys]
      refine List.Pairwise.cons ?_ (List.Pairwise.cons ?_ List.Pairwise.nil)
      · intro b hb
        simp only [List.mem_cons, List.not_mem_nil, or_false] at hb
        omega
      · intro b hb
        simp at hb
    · dsimp only
      rw [hes2keys]
      exact h.kNodup
    · dsimp only
      refine ⟨[added, []], ?_, ?_⟩
      · exact List.Forall₂.cons rfl (List.Forall₂.cons encodeList_nil.symm List.Forall₂.nil)
      · rw [show ([added, ([] : List Command)] : List (List Command)).flatten = added from by simp]
        exact hmatches
  · intro k
    have h1 := get_eq_of_matches
      { writer := ⟨s.writer.id + 2, 0⟩,
        readers := rds2.filter (fun p => decide (¬ p.1 ∈ (rds2.map (fun q => q.1)).filter
          (fun i => decide (i < s.writer.id + 1)))),
        files := [(s.writer.id + 1, encodeList added), (s.writer.id + 2, [])],
        index := es2,
        uncompacted := 0 } added hsyncF hmatches k
    rw [h1, get_eq_of_matches s css.flatten h.sync hmm k, hlogeq k]
  · intro id hid
    constructor
    · apply Option.not_isSome_iff_eq_none.mp
      intro hs2
      have hm2 := (aGet_isSome_iff_mem _ _).mp hs2
      simp only [List.map_cons, List.map_nil, List.mem_cons, List.not_mem_nil, or_false] at hm2
      rcases hm2 with h1 | h1 <;> omega
    · apply Option.not_isSome_iff_eq_none.mp
      intro hs2
      have hm2 := (aGet_isSome_iff_mem _ _).mp hs2
      rw [hrdsFkeys] at hm2
      simp only [List.mem_cons, List.not_mem_nil, or_false] at hm2
      rcases hm2 with h1 | h1 <;> omega
  · intro k vi2 hk
    have := hcidonly k vi2 hk
    omega
  · intro k vi hidx
    obtain ⟨vi2, v, hvi2, hfid, hsz, hmemadded, ⟨c2, hc2g, hb2, hsl2⟩,
        content1, hcontent1, hslice1⟩ := hcorr k vi hidx
    obtain ⟨vold, ⟨contentold, hcold, hbold, hslold⟩, hlogold⟩ := (hmm k).1 vi hidx
    have hco := hfget2 hcold
    rw [hcontent1] at hco
    injection hco with hceq
    rw [hceq] at hslice1
    have hc2eq : c2 = encodeList added := by
      rw [hfid, hfls2cid] at hc2g
      injection hc2g with hh
      exact hh.symm
    subst hc2eq
    refine ⟨vi2, hvi2, hfid, hsz,
      (contentold.drop vi.file_offset).take vi.size, contentold, encodeList added,
      hcold, rfl, ?_, ?_⟩
    · rw [hfid, aGet_cons, if_pos rfl]
    · rw [hsl2, hslice1]
  · intro k vi hidx hfid2
    have hmem := kGet_mem_of_eq_some hidx
    obtain ⟨hne1, hne2, _⟩ := hes _ hmem
    exact absurd hfid2 hne2

/-- KvStore::set always succeeds, preserves the invariant, and makes get
return the new value for the written key while leaving every other key's
result unchanged (compacting on the way out when the threshold is
crossed changes no result). -/
theorem set_master (s : Store) (h : Inv s) (k v : List Char) :
    (set s k v).1 = .ok () ∧ Inv (set s k v).2 ∧
      ∀ k2, (get (set s k v).2 k2).1 =
        if k2 = k then .ok (some v) else (get s k2).1 := by
  obtain ⟨hInv1, hget1⟩ := setPre_master s h k v
  simp only [set]
  by_cases hu : (setPre s k v).uncompacted > MAX_UNCOMPACTED
  · rw [if_pos hu]
    obtain ⟨hok, hinv2, hget2, hrest⟩ := compact_master _ hInv1
    refine ⟨hok, hinv2, ?_⟩
    intro k2
    rw [hget2 k2, hget1 k2]
  · rw [if_neg hu]
    exact ⟨rfl, hInv1, hget1⟩

/-- KvStore::remove preserves the invariant in all cases; a missing key
produces the KeyNotFound error with the store unchanged, a present key
succeeds, after which get on that key reports absence and every other
key is unaffected. -/
theorem remove_master (s : Store) (h : Inv s) (k : List Char) :
    Inv (remove s k).2 ∧
      (kGet s.index k = none → remove s k = (.error .keyNotFound, s)) ∧
      (kGet s.index k ≠ none → (remove s k).1 = .ok () ∧
        ∀ k2, (get (remove s k).2 k2).1 =
          if k2 = k then .ok none else (get s k2).1) := by
  cases hidx : kGet s.index k with
  | none =>
    have hr : remove s k = (.error .keyNotFound, s) := by
      simp only [remove, hidx]
    refine ⟨by rw [hr]; exact h, fun _ => hr, fun hne => absurd rfl hne⟩
  | some vi =>
    obtain ⟨hInv1, hget1⟩ := removePre_master s h k vi.size
    have hr : remove s k =
        (if (removePre s k vi.size).uncompacted > MAX_UNCOMPACTED
          then compact (removePre s k vi.size) else (.ok (), removePre s k vi.size)) := by
      simp only [remove, hidx]
    by_cases hu : (removePre s k vi.size).uncompacted > MAX_UNCOMPACTED
    · rw [if_pos hu] at hr
      obtain ⟨hok, hinv2, hget2, hrest⟩ := compact_master _ hInv1
      refine ⟨by rw [hr]; exact hinv2, fun hno => absurd hno (by simp), fun _ => ?_⟩
      rw [hr]
      refine ⟨hok, ?_⟩
      intro k2
      rw [hget2 k2, hget1 k2]
    · rw [if_neg hu] at hr
      exact ⟨by rw [hr]; exact hInv1, fun hno => absurd hno (by simp),
        fun _ => ⟨by rw [hr], by rw [hr]; exact hget1⟩⟩

/-- The store obtained by opening an empty directory satisfies the
invariant. -/
theorem Inv_store0 : Inv store0 := by
  refine ⟨⟨[], [], rfl, rfl⟩, ?_, ?_, ?_, ?_, ?_, ⟨[[]], ?_, ?_⟩⟩
  · simp [store0]
  · intro p hp
    simp only [store0, List.mem_singleton] at hp
    subst hp
    simp [store0]
  · intro id
    simp [store0, aGet]
  · simp [store0]
  · simp [store0]
  · exact List.Forall₂.cons encodeList_nil.symm List.Forall₂.nil
  · rw [show ([([] : List Command)] : List (List Command)).flatten = [] from by simp]
    exact indexMatches_nil _

/-- A get changes no other call's result: the first component of a
subsequent get is as on the original store. -/
theorem get_get_fst (s : Store) (h : Inv s) (k2 k : List Char) :
    (get (get s k2).2 k).1 = (get s k).1 := by
  obtain ⟨css, hfw, hmm⟩ := h.wf
  have h2 := get_inv h k2
  rcases get_state s k2 with hs | ⟨fid, pos, hs⟩
  · rw [hs]
  · rw [get_eq_of_matches s css.flatten h.sync hmm k]
    rw [hs] at h2 ⊢
    exact get_eq_of_matches _ css.flatten h2.sync hmm k

theorem runOps_cons (s : Store) (o : Op) (ops : List Op) :
    runOps s (o :: ops) = runOps (applyOp s o) ops := rfl

/-- Every engine call preserves the reachable-state invariant. -/
theorem applyOp_inv {s : Store} (h : Inv s) (o : Op) : Inv (applyOp s o) := by
  cases o with
  | opSet k v => exact (set_master s h k v).2.1
  | opRm k => exact (remove_master s h k).1
  | opGet k => exact get_inv h k

/-- A call that neither sets nor removes k leaves get k's result alone. -/
theorem applyOp_avoid {s : Store} (h : Inv s) {k : List Char} {o : Op} (hav : avoids k o) :
    (get (applyOp s o) k).1 = (get s k).1 := by
  cases o with
  | opSet k2 v =>
    have hg := (set_master s h k2 v).2.2 k
    simp only [applyOp]
    rw [hg]
    exact if_neg (fun hh => hav hh.symm)
  | opRm k2 =>
    simp only [applyOp]
    cases hidx : kGet s.index k2 with
    | none =>
      rw [(remove_master s h k2).2.1 hidx]
    | some vi =>
      have hg := ((remove_master s h k2).2.2 (by rw [hidx]; simp)).2 k
      rw [hg]
      exact if_neg (fun hh => hav hh.symm)
  | opGet k2 => exact get_get_fst s h k2 k

theorem runOps_inv : ∀ (ops : List Op) (s : Store), Inv s → Inv (runOps s ops) := by
  intro ops
  induction ops with
  | nil => intro s h; exact h
  | cons o rest ih => intro s h; exact ih _ (applyOp_inv h o)

/-- A sequence of calls avoiding k leaves get k's result alone. -/
theorem runOps_avoid {k : List Char} :
    ∀ (ops : List Op) (s : Store), Inv s → (∀ o ∈ ops, avoids k o) →
      (get (runOps s ops) k).1 = (get s k).1 := by
  intro ops
  induction ops with
  | nil => intro s h hav; rfl
  | cons o rest ih =>
    intro s h hav
    rw [runOps_cons,
      ih _ (applyOp_inv h o) (fun o2 ho2 => hav o2 (List.mem_cons_of_mem _ ho2)),
      applyOp_avoid h (hav o (List.mem_cons_self _ _))]

/-- Running calls from a store whose gets agree with a command history
yields a store whose gets agree with the extended history. -/
theorem runOps_logGet :
    ∀ (ops : List Op) (s : Store) (hist : List Command), Inv s →
      (∀ k, (get s k).1 = .ok (logGet hist k)) →
      ∀ k, (get (runOps s ops) k).1 = .ok (logGet (hist ++ cmdsOfOps ops) k) := by
  intro ops
  induction ops with
  | nil =>
    intro s hist h hgets k
    rw [show hist ++ cmdsOfOps [] = hist from by simp [cmdsOfOps]]
    exact hgets k
  | cons o rest ih =>
    intro s hist h hgets k
    cases o with
    | opSet k0 v0 =>
      rw [runOps_cons]
      have hstep : ∀ k2, (get (applyOp s (.opSet k0 v0)) k2).1 =
          .ok (logGet (hist ++ [⟨k0, some v0⟩]) k2) := by
        intro k2
        have hg := (set_master s h k0 v0).2.2 k2
        simp only [applyOp]
        rw [hg, logGet_concat]
        by_cases hk : k2 = k0
        · subst hk
          rw [if_pos rfl, if_pos rfl]
        · rw [if_neg hk, if_neg (fun hh => hk hh.symm), hgets k2]
      have hrec := ih _ _ (applyOp_inv h _) hstep k
      rw [hrec, List.append_assoc]
      simp only [cmdsOfOps, List.singleton_append]
    | opRm k0 =>
      rw [runOps_cons]
      have hstep : ∀ k2, (get (applyOp s (.opRm k0)) k2).1 =
          .ok (logGet (hist ++ [⟨k0, none⟩]) k2) := by
        intro k2
        simp only [applyOp]
        cases hidx : kGet s.index k0 with
        | none =>
          rw [(remove_master s h k0).2.1 hidx]
          rw [hgets k2, logGet_concat]
          by_cases hk : k0 = k2
          · rw [if_pos hk]
            have h0 : (get s k0).1 = .ok none := by simp only [get, hidx]
            have hl := hgets k0
            rw [h0] at hl
            injection hl with hlh
            rw [← hk, ← hlh]
          · rw [if_neg hk]
        | some vi =>
          have hg := ((remove_master s h k0).2.2 (by rw [hidx]; simp)).2 k2
          rw [hg, logGet_concat]
          by_cases hk : k2 = k0
          · subst hk
            rw [if_pos rfl, if_pos rfl]
          · rw [if_neg hk, if_neg (fun hh => hk hh.symm), hgets k2]
      have hrec := ih _ _ (applyOp_inv h _) hstep k
      rw [hrec, List.append_assoc]
      simp only [cmdsOfOps, List.singleton_append]
    | opGet k0 =>
      rw [runOps_cons]
      have hstep : ∀ k2, (get (applyOp s (.opGet k0)) k2).1 = .ok (logGet hist k2) := by
        intro k2
        simp only [applyOp]
        rw [get_get_fst s h k0 k2, hgets k2]
      exact ih _ _ (applyOp_inv h _) hstep k

/-- C1: read-your-writes — after set(k,v) returns Ok, every subsequent
get(k) returns Ok (some v) as long as the intervening calls are not a
set of k or a remove of k. -/
theorem read_your_writes (s : Store) (h : Inv s) (k v : List Char) (ops : List Op)
    (hav : ∀ o ∈ ops, avoids k o) :
    (set s k v).1 = .ok () ∧
      (get (runOps (set s k v).2 ops) k).1 = .ok (some v) := by
  obtain ⟨hok, hinv, hget⟩ := set_master s h k v
  refine ⟨hok, ?_⟩
  rw [runOps_avoid ops _ hinv hav, hget k, if_pos rfl]

theorem read_your_writes_witness :
    Inv store0 ∧
      (∀ o ∈ ([Op.opSet ['b'] ['w'], Op.opGet ['a'], Op.opRm ['b']] : List Op), avoids ['a'] o) ∧
      ((set store0 ['a'] ['v']).1 = .ok () ∧
        (get (runOps (set store0 ['a'] ['v']).2
          [Op.opSet ['b'] ['w'], Op.opGet ['a'], Op.opRm ['b']]) ['a']).1 = .ok (some ['v'])) :=
  ⟨Inv_store0, by decide,
    read_your_writes store0 Inv_store0 ['a'] ['v']
      [Op.opSet ['b'] ['w'], Op.opGet ['a'], Op.opRm ['b']] (by decide)⟩

/-- C2: persistence round-trip — after any sequence of calls on a store
opened over an empty directory, reopening over the resulting segment
files succeeds and yields a store whose get agrees with the pre-close
store on every key, namely the last value set and not since removed. -/
theorem persistence_round_trip (ops : List Op) :
    ∃ s2, openStore (runOps store0 ops).files = .ok s2 ∧
      (∀ k, (get s2 k).1 = (get (runOps store0 ops) k).1) ∧
      (∀ k, (get s2 k).1 = .ok (logGet (cmdsOfOps ops) k)) := by
  have hinv := runOps_inv ops store0 Inv_store0
  have hgets : ∀ k, (get (runOps store0 ops) k).1 = .ok (logGet (cmdsOfOps ops) k) := by
    intro k
    rw [runOps_logGet ops store0 [] Inv_store0 (fun k2 => rfl) k, List.nil_append]
  obtain ⟨s2, hopen, hinv2, hget2⟩ := openStore_spec _ hinv
  exact ⟨s2, hopen, fun k => hget2 k, fun k => by rw [hget2 k, hgets k]⟩

/-- C3 (corrected): get on an unindexed key returns Ok none; get on an
indexed key seeks the recorded segment reader to the recorded offset
and decodes one record from the recorded size's bytes; a decoded Set
record has its value returned WITHOUT the record's key ever being
compared against the requested key (the source destructures
`Command { value, .. }`, discarding the key, so a key mismatch is not
an error); only a decoded tombstone produces the UnexpectedCommand
(CorruptLog) error. -/
theorem get_semantics (s : Store) (k : List Char) :
    (kGet s.index k = none → (get s k).1 = .ok none) ∧
    (∀ vi pos content k2 v, kGet s.index k = some vi →
      aGet s.readers vi.file_id = some pos →
      aGet s.files vi.file_id = some content →
      (content.drop vi.file_offset).take vi.size = encodeCmd ⟨k2, some v⟩ →
      (get s k).1 = .ok (some v)) ∧
    (∀ vi pos content k2, kGet s.index k = some vi →
      aGet s.readers vi.file_id = some pos →
      aGet s.files vi.file_id = some content →
      (content.drop vi.file_offset).take vi.size = encodeCmd ⟨k2, none⟩ →
      (get s k).1 = .error .unexpectedCommand) := by
  refine ⟨?_, ?_, ?_⟩
  · intro hidx
    simp only [get, hidx]
  · intro vi pos content k2 v hidx hrd hct hsl
    simp only [get, hidx, hrd, hct, hsl, fromReaderOne_encode]
  · intro vi pos content k2 hidx hrd hct hsl
    simp only [get, hidx, hrd, hct, hsl, fromReaderOne_encode]

theorem get_semantics_witness :
    (kGet ({ writer := ⟨1, (encodeCmd ⟨['a'], some ['v']⟩).length⟩,
             readers := [(1, 0)],
             files := [(1, encodeCmd ⟨['a'], some ['v']⟩)],
             index := [(['a'], ⟨1, 0, (encodeCmd ⟨['a'], some ['v']⟩).length⟩)],
             uncompacted := 0 } : Store).index ['a'] =
        some ⟨1, 0, (encodeCmd ⟨['a'], some ['v']⟩).length⟩) ∧
    (aGet ({ writer := ⟨1, (encodeCmd ⟨['a'], some ['v']⟩).length⟩,
             readers := [(1, 0)],
             files := [(1, encodeCmd ⟨['a'], some ['v']⟩)],
             index := [(['a'], ⟨1, 0, (encodeCmd ⟨['a'], some ['v']⟩).length⟩)],
             uncompacted := 0 } : Store).readers 1 = some 0) ∧
    ((get ({ writer := ⟨1, (encodeCmd ⟨['a'], some ['v']⟩).length⟩,
             readers := [(1, 0)],
             files := [(1, encodeCmd ⟨['a'], some ['v']⟩)],
             index := [(['a'], ⟨1, 0, (encodeCmd ⟨['a'], some ['v']⟩).length⟩)],
             uncompacted := 0 } : Store) ['a']).1 = .ok (some ['v'])) :=
  ⟨rfl, rfl,
    (get_semantics { writer := ⟨1, (encodeCmd ⟨['a'], some ['v']⟩).length⟩,
                     readers := [(1, 0)],
                     files := [(1, encodeCmd ⟨['a'], some ['v']⟩)],
                     index := [(['a'], ⟨1, 0, (encodeCmd ⟨['a'], some ['v']⟩).length⟩)],
                     uncompacted := 0 } ['a']).2.1
      ⟨1, 0, (encodeCmd ⟨['a'], some ['v']⟩).length⟩ 0 (encodeCmd ⟨['a'], some ['v']⟩)
      ['a'] ['v'] rfl rfl rfl rfl⟩

/-- C3 counterexample: a store whose index entry for key "a" points at
a well-formed Set record whose key is "b"; the spec demands an
index/segment-mismatch error, but get returns Ok (some "v") — the
record's key is never checked. -/
theorem get_semantics_counterexample :
    (get ({ writer := ⟨1, (encodeCmd ⟨['b'], some ['v']⟩).length⟩,
            readers := [(1, 0)],
            files := [(1, encodeCmd ⟨['b'], some ['v']⟩)],
            index := [(['a'], ⟨1, 0, (encodeCmd ⟨['b'], some ['v']⟩).length⟩)],
            uncompacted := 0 } : Store) ['a']).1 = .ok (some ['v']) ∧
    (['b'] : List Char) ≠ ['a'] := by
  refine ⟨?_, by decide⟩
  rfl

/-- Under the invariant the active segment is the last file, and its id
appears nowhere earlier in the file list. -/
theorem writerLast_split (s : Store) (h : Inv s) :
    ∃ fs0 c, s.files = fs0 ++ [(s.writer.id, c)] ∧ s.writer.offset = c.length ∧
      aGet fs0 s.writer.id = none := by
  obtain ⟨fs0, c, hfiles, hoff⟩ := h.writerLast
  have hpw : List.Pairwise (· < ·) ((fs0 ++ [(s.writer.id, c)]).map (fun p => p.1)) := by
    rw [← hfiles]; exact h.ascIds
  rw [List.map_append, List.pairwise_append] at hpw
  refine ⟨fs0, c, hfiles, hoff, ?_⟩
  cases hget : aGet fs0 s.writer.id with
  | none => rfl
  | some y =>
    have hmem : s.writer.id ∈ fs0.map (fun p => p.1) :=
      List.mem_map.mpr ⟨_, aGet_mem_of_eq_some hget, rfl⟩
    have := hpw.2.2 _ hmem s.writer.id (by simp)
    omega

/-- C4: set postcondition — set records the writer's offset as start,
appends the serialized Set record to the active segment (advancing the
offset by the record's length, which is the computed len), adds the old
entry's size to the uncompacted counter exactly when the key was
already indexed, installs ⟨active id, start, len⟩ for the key leaving
every other key's entry alone, and ends with the compaction call iff
the counter then exceeds MAX_UNCOMPACTED = 1 MiB. -/
theorem set_postcondition (s : Store) (h : Inv s) (k v : List Char) :
    ∃ fs0 c, s.files = fs0 ++ [(s.writer.id, c)] ∧ s.writer.offset = c.length ∧
      (setPre s k v).files = fs0 ++ [(s.writer.id, c ++ encodeCmd ⟨k, some v⟩)] ∧
      (setPre s k v).writer.id = s.writer.id ∧
      (setPre s k v).writer.offset = s.writer.offset + (encodeCmd ⟨k, some v⟩).length ∧
      (∀ vi, kGet s.index k = some vi →
        (setPre s k v).uncompacted = s.uncompacted + vi.size) ∧
      (kGet s.index k = none → (setPre s k v).uncompacted = s.uncompacted) ∧
      kGet (setPre s k v).index k =
        some ⟨s.writer.id, s.writer.offset, (encodeCmd ⟨k, some v⟩).length⟩ ∧
      (∀ k2, k2 ≠ k → kGet (setPre s k v).index k2 = kGet s.index k2) ∧
      ((setPre s k v).uncompacted > MAX_UNCOMPACTED →
        set s k v = compact (setPre s k v)) ∧
      (¬ (setPre s k v).uncompacted > MAX_UNCOMPACTED →
        set s k v = (.ok (), setPre s k v)) := by
  obtain ⟨fs0, c, hfiles, hoff, hfs0A⟩ := writerLast_split s h
  refine ⟨fs0, c, hfiles, hoff, ?_, rfl, rfl, ?_, ?_, ?_, ?_, ?_, ?_⟩
  · simp only [setPre]
    rw [hfiles, fAppend_last _ hfs0A]
  · intro vi hk
    simp only [setPre, hk]
  · intro hk
    simp only [setPre, hk]
  · simp only [setPre]
    exact kGet_kPut_self _ _ _
  · intro k2 hne
    simp only [setPre]
    exact kGet_kPut_ne _ _ hne
  · intro hu
    simp only [set]
    rw [if_pos hu]
  · intro hu
    simp only [set]
    rw [if_neg hu]

theorem set_postcondition_witness :
    Inv store0 ∧
      ∃ fs0 c, store0.files = fs0 ++ [(store0.writer.id, c)] ∧
        store0.writer.offset = c.length ∧
        (setPre store0 ['a'] ['v']).files =
          fs0 ++ [(store0.writer.id, c ++ encodeCmd ⟨['a'], some ['v']⟩)] ∧
        (setPre store0 ['a'] ['v']).writer.id = store0.writer.id ∧
        (setPre store0 ['a'] ['v']).writer.offset =
          store0.writer.offset + (encodeCmd ⟨['a'], some ['v']⟩).length ∧
        (∀ vi, kGet store0.index ['a'] = some vi →
          (setPre store0 ['a'] ['v']).uncompacted = store0.uncompacted + vi.size) ∧
        (kGet store0.index ['a'] = none →
          (setPre store0 ['a'] ['v']).uncompacted = store0.uncompacted) ∧
        kGet (setPre store0 ['a'] ['v']).index ['a'] =
          some ⟨store0.writer.id, store0.writer.offset, (encodeCmd ⟨['a'], some ['v']⟩).length⟩ ∧
        (∀ k2, k2 ≠ ['a'] → kGet (setPre store0 ['a'] ['v']).index k2 = kGet store0.index k2) ∧
        ((setPre store0 ['a'] ['v']).uncompacted > MAX_UNCOMPACTED →
          set store0 ['a'] ['v'] = compact (setPre store0 ['a'] ['v'])) ∧
        (¬ (setPre store0 ['a'] ['v']).uncompacted > MAX_UNCOMPACTED →
          set store0 ['a'] ['v'] = (.ok (), setPre store0 ['a'] ['v'])) :=
  ⟨Inv_store0, set_postcondition store0 Inv_store0 ['a'] ['v']⟩

/-- C5: remove semantics — a key absent from the index fails with
KeyNotFound and the whole store is returned unchanged; a present key
has its tombstone appended to the active segment, both the prior
entry's size and the tombstone's length added to the uncompacted
counter, its index entry deleted (others untouched), and the call ends
with the compaction call iff the threshold is then exceeded. -/
theorem remove_semantics (s : Store) (h : Inv s) (k : List Char) :
    (kGet s.index k = none → remove s k = (.error .keyNotFound, s)) ∧
    (∀ vi, kGet s.index k = some vi →
      ∃ fs0 c, s.files = fs0 ++ [(s.writer.id, c)] ∧
        (removePre s k vi.size).files =
          fs0 ++ [(s.writer.id, c ++ encodeCmd ⟨k, none⟩)] ∧
        (removePre s k vi.size).uncompacted =
          s.uncompacted + vi.size + (encodeCmd ⟨k, none⟩).length ∧
        kGet (removePre s k vi.size).index k = none ∧
        (∀ k2, k2 ≠ k → kGet (removePre s k vi.size).index k2 = kGet s.index k2) ∧
        ((removePre s k vi.size).uncompacted > MAX_UNCOMPACTED →
          remove s k = compact (removePre s k vi.size)) ∧
        (¬ (removePre s k vi.size).uncompacted > MAX_UNCOMPACTED →
          remove s k = (.ok (), removePre s k vi.size))) := by
  constructor
  · intro hidx
    simp only [remove, hidx]
  · intro vi hidx
    obtain ⟨fs0, c, hfiles, hoff, hfs0A⟩ := writerLast_split s h
    refine ⟨fs0, c, hfiles, ?_, rfl, ?_, ?_, ?_, ?_⟩
    · simp only [removePre]
      rw [hfiles, fAppend_last _ hfs0A]
    · simp only [removePre]
      exact kGet_kDel_self _ _
    · intro k2 hne
      simp only [removePre]
      exact kGet_kDel_ne _ hne
    · intro hu
      simp only [remove, hidx]
      rw [if_pos hu]
    · intro hu
      simp only [remove, hidx]
      rw [if_neg hu]

theorem remove_semantics_witness :
    Inv store0 ∧
      ((kGet store0.index ['a'] = none → remove store0 ['a'] = (.error .keyNotFound, store0)) ∧
       (∀ vi, kGet store0.index ['a'] = some vi →
         ∃ fs0 c, store0.files = fs0 ++ [(store0.writer.id, c)] ∧
           (removePre store0 ['a'] vi.size).files =
             fs0 ++ [(store0.writer.id, c ++ encodeCmd ⟨['a'], none⟩)] ∧
           (removePre store0 ['a'] vi.size).uncompacted =
             store0.uncompacted + vi.size + (encodeCmd ⟨['a'], none⟩).length ∧
           kGet (removePre store0 ['a'] vi.size).index ['a'] = none ∧
           (∀ k2, k2 ≠ ['a'] →
             kGet (removePre store0 ['a'] vi.size).index k2 = kGet store0.index k2) ∧
           ((removePre store0 ['a'] vi.size).uncompacted > MAX_UNCOMPACTED →
             remove store0 ['a'] = compact (removePre store0 ['a'] vi.size)) ∧
           (¬ (removePre store0 ['a'] vi.size).uncompacted > MAX_UNCOMPACTED →
             remove store0 ['a'] = (.ok (), removePre store0 ['a'] vi.size)))) :=
  ⟨Inv_store0, remove_semantics store0 Inv_store0 ['a']⟩

/-- C6: compaction postcondition — compact succeeds; with A the active
id at entry, the new active id is A+2 and the uncompacted counter is
zero; every file and reader with id below C = A+1 is gone; every index
entry afterwards points into a segment with id ≥ C; every entry that
was indexed at entry is re-indexed in segment C with its size preserved
and its recorded bytes copied verbatim; an entry already in segment
A+2 would be left untouched (at entry no entry can be there, the
active segment being A). -/
theorem compaction_postcondition (s : Store) (h : Inv s) :
    (compact s).1 = .ok () ∧
    (compact s).2.writer.id = s.writer.id + 2 ∧
    (compact s).2.uncompacted = 0 ∧
    (∀ id, id < s.writer.id + 1 →
      aGet (compact s).2.files id = none ∧ aGet (compact s).2.readers id = none) ∧
    (∀ k vi2, kGet (compact s).2.index k = some vi2 → s.writer.id + 1 ≤ vi2.file_id) ∧
    (∀ k vi, kGet s.index k = some vi →
      ∃ vi2, kGet (compact s).2.index k = some vi2 ∧ vi2.file_id = s.writer.id + 1 ∧
        vi2.size = vi.size ∧
        ∃ bytes content content2, aGet s.files vi.file_id = some content ∧
          (content.drop vi.file_offset).take vi.size = bytes ∧
          aGet (compact s).2.files vi2.file_id = some content2 ∧
          (content2.drop vi2.file_offset).take vi2.size = bytes) ∧
    (∀ k vi, kGet s.index k = some vi → vi.file_id = s.writer.id + 2 →
      kGet (compact s).2.index k = some vi) := by
  obtain ⟨h1, h2, h3, h4, h5, h6, h7, h8, h9⟩ := compact_master s h
  exact ⟨h1, h4, h5, h6, h7, h8, h9⟩

theorem compaction_postcondition_witness :
    Inv store0 ∧
      ((compact store0).1 = .ok () ∧
       (compact store0).2.writer.id = store0.writer.id + 2 ∧
       (compact store0).2.uncompacted = 0 ∧
       (∀ id, id < store0.writer.id + 1 →
         aGet (compact store0).2.files id = none ∧ aGet (compact store0).2.readers id = none) ∧
       (∀ k vi2, kGet (compact store0).2.index k = some vi2 →
         store0.writer.id + 1 ≤ vi2.file_id) ∧
       (∀ k vi, kGet store0.index k = some vi →
         ∃ vi2, kGet (compact store0).2.index k = some vi2 ∧
           vi2.file_id = store0.writer.id + 1 ∧ vi2.size = vi.size ∧
           ∃ bytes content content2, aGet store0.files vi.file_id = some content ∧
             (content.drop vi.file_offset).take vi.size = bytes ∧
             aGet (compact store0).2.files vi2.file_id = some content2 ∧
             (content2.drop vi2.file_offset).take vi2.size = bytes) ∧
       (∀ k vi, kGet store0.index k = some vi → vi.file_id = store0.writer.id + 2 →
         kGet (compact store0).2.index k = some vi)) :=
  ⟨Inv_store0, compaction_postcondition store0 Inv_store0⟩

/-- C7: server dispatch table — for every decoded command the handler
produces exactly the tabulated response: Get hit ⇒ Value, Get miss ⇒
Empty, Get error ⇒ Unknown; Set ok ⇒ Empty, Set error ⇒ Unknown;
Remove ok ⇒ Empty, Remove KeyNotFound ⇒ KeyNotFound, any other Remove
error ⇒ Unknown. -/
theorem server_dispatch (e : EngineM) :
    (∀ k v, e.get k = .ok (some v) → handleCommand e (.get k) = .value v) ∧
    (∀ k, e.get k = .ok none → handleCommand e (.get k) = .empty) ∧
    (∀ k err, e.get k = .error err → handleCommand e (.get k) = .error .unknown) ∧
    (∀ k v, e.set k v = .ok () → handleCommand e (.set k v) = .empty) ∧
    (∀ k v err, e.set k v = .error err → handleCommand e (.set k v) = .error .unknown) ∧
    (∀ k, e.rm k = .ok () → handleCommand e (.rm k) = .empty) ∧
    (∀ k, e.rm k = .error .keyNotFound → handleCommand e (.rm k) = .error .keyNotFound) ∧
    (∀ k err, e.rm k = .error err → err ≠ .keyNotFound →
      handleCommand e (.rm k) = .error .unknown) := by
  refine ⟨?_, ?_, ?_, ?_, ?_, ?_, ?_, ?_⟩
  · intro k v hg
    simp only [handleCommand, hg]
  · intro k hg
    simp only [handleCommand, hg]
  · intro k err hg
    simp only [handleCommand, hg]
  · intro k v hg
    simp only [handleCommand, hg]
  · intro k v err hg
    simp only [handleCommand, hg]
  · intro k hg
    simp only [handleCommand, hg]
  · intro k hg
    simp only [handleCommand, hg]
  · intro k err hg hne
    cases err <;> simp only [handleCommand, hg] <;> exact absurd rfl hne

theorem server_dispatch_witness :
    ({ get := fun _ => .ok none, set := fun _ _ => .ok (),
       rm := fun _ => .error .keyNotFound } : EngineM).rm ['k'] = .error .keyNotFound ∧
    handleCommand
      { get := fun _ => .ok none, set := fun _ _ => .ok (),
        rm := fun _ => .error .keyNotFound } (.rm ['k']) = .error .keyNotFound :=
  ⟨rfl,
    (server_dispatch
      { get := fun _ => .ok none, set := fun _ _ => .ok (),
        rm := fun _ => .error .keyNotFound }).2.2.2.2.2.2.1 ['k'] rfl⟩

/-- C8 (corrected): per-connection loop — a record that decodes to a
command yields exactly one written response followed by a flush, and
the loop continues with the rest of the stream; a record that fails to
decode yields the CommandDeserialisation error response WITHOUT a
subsequent flush (the source's Err arm skips writer.flush), and the
loop likewise continues without crashing; the sequence of responses
written is responseFor of each incoming record in order. -/
theorem per_connection_loop (e : EngineM) :
    handleReq e [] = [] ∧
    (∀ cmd rest, handleReq e (.ok cmd :: rest) =
      .wr (handleCommand e cmd) :: .fl :: handleReq e rest) ∧
    (∀ err rest, handleReq e (.error err :: rest) =
      .wr (.error .commandDeserialisation) :: handleReq e rest) ∧
    (∀ msgs, responsesOf (handleReq e msgs) = msgs.map (responseFor e)) := by
  refine ⟨rfl, fun cmd rest => rfl, fun err rest => rfl, ?_⟩
  intro msgs
  induction msgs with
  | nil => rfl
  | cons m rest ih =>
    cases m with
    | error u =>
      show responsesOf (.wr (.error .commandDeserialisation) :: handleReq e rest) =
        List.map (responseFor e) (.error u :: rest)
      rw [List.map_cons]
      rw [show responsesOf (.wr (.error .commandDeserialisation) :: handleReq e rest) =
        .error .commandDeserialisation :: responsesOf (handleReq e rest) from rfl]
      rw [ih]
      rfl
    | ok cmd =>
      show responsesOf (.wr (handleCommand e cmd) :: .fl :: handleReq e rest) =
        List.map (responseFor e) (.ok cmd :: rest)
      rw [List.map_cons]
      rw [show responsesOf (.wr (handleCommand e cmd) :: .fl :: handleReq e rest) =
        handleCommand e cmd :: responsesOf (handleReq e rest) from rfl]
      rw [ih]
      rfl

/-- C8 counterexample: the spec requires the CommandDeserialisation
response to be flushed like every other response, but the event stream
the code produces for one undecodable record holds the written
response and no flush at all. -/
theorem per_connection_loop_counterexample :
    handleReq { get := fun _ => .ok none, set := fun _ _ => .ok (), rm := fun _ => .ok () }
        [.error ()] = [.wr (.error .commandDeserialisation)] ∧
    WEvent.fl ∉ handleReq
      { get := fun _ => .ok none, set := fun _ _ => .ok (), rm := fun _ => .ok () }
      [.error ()] := by
  refine ⟨rfl, ?_⟩
  intro hmem
  simp only [handleReq, List.mem_singleton] at hmem
  cases hmem

/-- The live-worker count is untouched by any message sequence free of
Shutdown: a panicking job costs one worker and the sentinel respawns
exactly one. -/
theorem poolRun_no_shutdown :
    ∀ (msgs : List ThreadPoolMessage) (n : Nat), 0 < n →
      ThreadPoolMessage.shutdown ∉ msgs → poolRun n msgs = n := by
  intro msgs
  induction msgs with
  | nil => intro n hn h; rfl
  | cons m rest ih =>
    intro n hn h
    have hm : m ≠ .shutdown := fun hh => h (hh ▸ List.mem_cons_self _ _)
    have hstep : poolStep n m = n := by
      cases m with
      | runJob b =>
        cases b <;> simp [poolStep, sentinelRespawn] <;> omega
      | shutdown => exact absurd rfl hm
    show poolRun (poolStep n m) rest = n
    rw [hstep]
    exact ih n hn (fun hmem => h (List.mem_cons_of_mem _ hmem))

/-- C9: worker-pool liveness — starting from N > 0 workers, any message
sequence without a Shutdown leaves exactly N workers live: the sentinel
of a panicking worker respawns exactly one replacement, a
non-panicking job changes nothing, and a Shutdown (reducing the count
by one) is the only non-respawned exit. -/
theorem pool_liveness (n : Nat) (hn : 0 < n) (msgs : List ThreadPoolMessage)
    (hns : ThreadPoolMessage.shutdown ∉ msgs) :
    poolRun n msgs = n ∧
    sentinelRespawn true = 1 ∧ sentinelRespawn false = 0 ∧
    (∀ live, 0 < live → ∀ b, poolStep live (.runJob b) = live) ∧
    (∀ live, poolStep live .shutdown = live - 1) := by
  refine ⟨poolRun_no_shutdown msgs n hn hns, rfl, rfl, ?_, ?_⟩
  · intro live hl b
    cases b <;> simp [poolStep, sentinelRespawn] <;> omega
  · intro live
    simp [poolStep, sentinelRespawn]

theorem pool_liveness_witness :
    0 < 4 ∧
    (ThreadPoolMessage.shutdown ∉
      ([.runJob true, .runJob false, .runJob true] : List ThreadPoolMessage)) ∧
    (poolRun 4 [.runJob true, .runJob false, .runJob true] = 4 ∧
     sentinelRespawn true = 1 ∧ sentinelRespawn false = 0 ∧
     (∀ live, 0 < live → ∀ b, poolStep live (.runJob b) = live) ∧
     (∀ live, poolStep live .shutdown = live - 1)) :=
  ⟨by decide, by decide,
    pool_liveness 4 (by decide) [.runJob true, .runJob false, .runJob true] (by decide)⟩

/-- C10: get is read-only — whatever it returns, get leaves the index,
the uncompacted counter, the writer (active id and offset) and the
files untouched, never appends and never compacts; at most the seek
position of one existing reader changes (the reader set's keys are
preserved). -/
theorem get_read_only (s : Store) (k : List Char) :
    (get s k).2.index = s.index ∧
    (get s k).2.uncompacted = s.uncompacted ∧
    (get s k).2.writer = s.writer ∧
    (get s k).2.files = s.files ∧
    (get s k).2.readers.map (fun p => p.1) = s.readers.map (fun p => p.1) ∧
    ((get s k).2 = s ∨
      ∃ fid pos, (get s k).2 = { s with readers := rSeek s.readers fid pos }) := by
  rcases hs : get_state s k with h1 | ⟨fid, pos, h1⟩
  · rw [h1]
    exact ⟨rfl, rfl, rfl, rfl, rfl, Or.inl rfl⟩
  · rw [h1]
    refine ⟨rfl, rfl, rfl, rfl, ?_, Or.inr ⟨fid, pos, rfl⟩⟩
    exact aMod_keys s.readers fid (fun _ => pos)

end Kvs
